import Mathlib

/-!
# The request/response archive of mahimahi (`archive.cc`)

A shallow embedding of `remove_query`, `match_size`, `Archive::find_request`,
`Archive::add_request`, `Archive::add_response` and `Archive::print`.

A `std::string` is a `List Char`.  Machine integers are `Nat`/`Int` with the
conversions of the C++ code written out: `size_t` is 64 bits wide,
`unsigned int` and `int` are 32 bits wide.
-/

namespace Archive

/-! ## Outcomes -/

/-- The ways a call can end without returning a value. -/
inductive Fault where
  /-- `std::out_of_range` thrown by `at()`. -/
  | out_of_range
  /-- A failed `assert`. -/
  | assertion
  /-- A loop that never exits. -/
  | nontermination
deriving DecidableEq, Repr

/-- What a call does: it returns a value, or it ends in a `Fault`. -/
inductive Outcome (α : Type) where
  | ok : α → Outcome α
  | fault : Fault → Outcome α
deriving DecidableEq, Repr

/-! ## Messages -/

/-- Modelled from the spec: the message type `MahimahiProtobufs::HTTPMessage`
(declared in a generated header that is not part of the sources), "a
first-line ... and a case-insensitive header-name → header-value mapping".
The headers are kept in the order they were written. -/
structure HTTPMessage where
  first_line : List Char
  headers : List (List Char × List Char)
deriving DecidableEq, Repr

/-- A default-constructed message (`MahimahiProtobufs::HTTPMessage blank;`):
every field is empty. -/
def blank : HTTPMessage := ⟨[], []⟩

/-- Modelled from the spec: `get_header_value` of `HTTPRequest`
(`http_request.hh` is not part of the sources), "a case-insensitive
header-name → header-value mapping with last-write-wins semantics per name".
`none` stands for a name that has no value. -/
def get_header_value (m : HTTPMessage) (header_name : List Char) : Option (List Char) :=
  (m.headers.reverse.find?
    (fun h => decide (h.1.map Char.toLower = header_name.map Char.toLower))).map Prod.snd

/-- The header name `"Host"`. -/
def Host : List Char := ['H', 'o', 's', 't']

/-! ## Machine integers -/

/-- Conversion of an unsigned value to `unsigned int` (32 bits). -/
def to_unsigned (n : Nat) : Nat := n % 2 ^ 32

/-- Conversion of an unsigned value to `int` (32 bits, two's complement). -/
def to_int (n : Nat) : Int :=
  if n % 2 ^ 32 < 2 ^ 31 then ((n % 2 ^ 32 : Nat) : Int)
  else ((n % 2 ^ 32 : Nat) : Int) - 2 ^ 32

/-- Conversion of an `int` to `size_t` (64 bits). -/
def to_size_t (i : Int) : Nat := (i % 2 ^ 64).toNat

/-- The constant `std::string::npos`, the largest `size_t`. -/
def npos : Nat := 2 ^ 64 - 1

/-! ## Strings -/

/-- The call `s.find( "?" )`: the position of the first `?` of `s`, or `none`
when there is none (the code gets `npos`, which is no position of a string). -/
def find_query : List Char → Option Nat
  | [] => none
  | c :: s => if c = '?' then some 0 else (find_query s).map (· + 1)

/-- The `size_t` that `s.find( "?" )` returns. -/
def find_result (s : List Char) : Nat :=
  match find_query s with
  | some index => index
  | none => npos

/-- `remove_query` (archive.cc:16). -/
def remove_query (request_line : List Char) : List Char :=
  match find_query request_line with
  | none => request_line
  | some index => request_line.take index

/-- The `for` loop of `match_size` (archive.cc:29-33) from the value `i` of
its counter, an `unsigned int`; `fuel` bounds the number of times the loop
condition is evaluated. -/
def match_size_loop (first second : List Char) (max_match : Nat) : Nat → Nat → Outcome Int
  | 0, _ => .fault .nontermination
  | fuel + 1, i =>
    if i < max_match then
      match first[i]?, second[i]? with
      | some a, some b =>
        if a ≠ b then .ok (to_int i)
        else match_size_loop first second max_match fuel (to_unsigned (i + 1))
      | _, _ => .fault .out_of_range
    else .ok (to_int max_match)

/-- `match_size` (archive.cc:26).  The counter takes `2 ^ 32` values, so a
loop that has not exited after `2 ^ 32 + 1` evaluations of its condition
never exits. -/
def match_size (first second : List Char) : Outcome Int :=
  match_size_loop first second (min first.length second.length) (2 ^ 32 + 1)
    (to_unsigned (find_result first))

/-! ## The archive -/

/-- The member `archive_`: a vector of (request, response) pairs. -/
abbrev Store := List (HTTPMessage × HTTPMessage)

/-- The `for` loop of `Archive::find_request` (archive.cc:50-66) over the
entries still to visit, with the statements that follow it (archive.cc:68-73).
`str` is `HTTPResponse::str`, which is not part of the sources. -/
def find_request_loop (str : HTTPMessage → List Char) (request : HTTPMessage) :
    Store → Int × List Char → Outcome (Bool × List Char)
  | [], possible_match =>
    if possible_match.1 ≠ 0 then .ok (true, possible_match.2) else .ok (false, [])
  | x :: rest, possible_match =>
    if remove_query x.1.first_line = remove_query request.first_line then
      if get_header_value x.1 Host = get_header_value request Host then
        if x.1.first_line = request.first_line then .ok (true, str x.2)
        else
          match match_size x.1.first_line request.first_line with
          | .fault f => .fault f
          | .ok match_val =>
            if match_val > possible_match.1 then
              find_request_loop str request rest (match_val, str x.2)
            else find_request_loop str request rest possible_match
      else find_request_loop str request rest possible_match
    else find_request_loop str request rest possible_match

/-- `Archive::find_request` (archive.cc:41). -/
def find_request (str : HTTPMessage → List Char) (archive_ : Store)
    (incoming_req : HTTPMessage) : Outcome (Bool × List Char) :=
  find_request_loop str incoming_req archive_ (0, [])

/-- `Archive::add_request` (archive.cc:76): the archive after the call and the
`int` returned. -/
def add_request (str : HTTPMessage → List Char) (archive_ : Store)
    (incoming_req : HTTPMessage) : Outcome (Store × Int) :=
  match find_request str archive_ incoming_req with
  | .fault f => .fault f
  | .ok res =>
    if res.1 = true then .ok (archive_, -1)
    else .ok (archive_ ++ [(incoming_req, blank)],
              to_int ((archive_ ++ [(incoming_req, blank)]).length - 1))

/-- `Archive::add_response` (archive.cc:92): the archive when the call ends,
and how the call ends.  The first `at()` (archive.cc:96) throws when the index,
converted to `size_t`, is no position of the vector; the `assert`
(archive.cc:97) is compiled in; the assignment (archive.cc:99) is reached only
after both. -/
def add_response (archive_ : Store) (response : HTTPMessage) (index : Int) :
    Store × Outcome Unit :=
  match archive_[to_size_t index]? with
  | none => (archive_, .fault .out_of_range)
  | some entry =>
    if entry.2.first_line = [] then
      (archive_.set (to_size_t index) (entry.1, response), .ok ())
    else (archive_, .fault .assertion)

/-- The loop of `Archive::print` (archive.cc:107-111) from the value `i` of
its counter, an `unsigned int`, and the text `to_write` built so far; `fuel`
bounds the number of times the loop condition is evaluated. -/
def print_loop (archive_ : Store) : Nat → Nat → List Char → Outcome (List Char)
  | 0, _, _ => .fault .nontermination
  | fuel + 1, i, to_write =>
    if i < archive_.length then
      match archive_[i]? with
      | some x =>
        print_loop archive_ fuel (to_unsigned (i + 1))
          (to_write ++ (x.1.first_line ++ ['\n'] ++ x.2.first_line ++ ['\n', '\n']))
      | none => .fault .out_of_range
    else .ok to_write

/-- The text `to_write` that `Archive::print` (archive.cc:102) builds and
hands to the file descriptor in its one `write`.  The counter takes `2 ^ 32`
values, so a loop that has not exited after `2 ^ 32 + 1` evaluations of its
condition never exits. -/
def print_text (archive_ : Store) : Outcome (List Char) :=
  print_loop archive_ (2 ^ 32 + 1) 0 []

/-! ## Notions used to state the properties -/

/-- The entry `x` passes both filters of `Archive::find_request`
(archive.cc:52-53): its first line up to the first `?` and its `Host` value
are those of `request`. -/
def is_candidate (request : HTTPMessage) (x : HTTPMessage × HTTPMessage) : Prop :=
  remove_query x.1.first_line = remove_query request.first_line ∧
    get_header_value x.1 Host = get_header_value request Host

/-- The request of the entry `x` has the first line and the `Host` value of
`request`. -/
def is_identical (request : HTTPMessage) (x : HTTPMessage × HTTPMessage) : Prop :=
  x.1.first_line = request.first_line ∧
    get_header_value x.1 Host = get_header_value request Host

instance (request : HTTPMessage) (x : HTTPMessage × HTTPMessage) :
    Decidable (is_candidate request x) := by
  unfold is_candidate
  infer_instance

instance (request : HTTPMessage) (x : HTTPMessage × HTTPMessage) :
    Decidable (is_identical request x) := by
  unfold is_identical
  infer_instance

/-- The text of the diagnostic dump in the words of the spec: for every entry
in storage order, the first line of the request, a line break, the first line
of the response and two line breaks. -/
def dump_text : Store → List Char
  | [] => []
  | x :: rest => x.1.first_line ++ ['\n'] ++ x.2.first_line ++ ['\n', '\n'] ++ dump_text rest

/-- The number of line breaks inside the first lines of the entries. -/
def inner_newlines : Store → Nat
  | [] => 0
  | x :: rest =>
    x.1.first_line.count '\n' + x.2.first_line.count '\n' + inner_newlines rest

/-- The length of the longest string that both `first` and `second` start
with. -/
def shared_length : List Char → List Char → Nat
  | a :: s, b :: t => if a = b then shared_length s t + 1 else 0
  | _, _ => 0

/-- The archives that calls of `add_request` and of `add_response` that
return build from the empty archive. -/
inductive Reachable (str : HTTPMessage → List Char) : Store → Prop where
  | empty : Reachable str []
  | add_request (archive_ next : Store) (incoming_req : HTTPMessage) (index : Int) :
      Reachable str archive_ →
      add_request str archive_ incoming_req = .ok (next, index) → Reachable str next
  | add_response (archive_ next : Store) (response : HTTPMessage) (index : Int) :
      Reachable str archive_ →
      add_response archive_ response index = (next, .ok ()) → Reachable str next

/-! ## Concrete messages and archives -/

/-- A request with a first line and one header, `Host`. -/
def request (first_line host : String) : HTTPMessage :=
  ⟨first_line.toList, [(Host, host.toList)]⟩

/-- A response with a status line and no header. -/
def response (status : String) : HTTPMessage := ⟨status.toList, []⟩

/-- A stand-in for `HTTPResponse::str`: the status line, a line break, and the
header values each followed by a line break. -/
def sample_str (m : HTTPMessage) : List Char :=
  m.first_line ++ ['\r', '\n'] ++ (m.headers.map (fun h => h.2 ++ ['\r', '\n'])).flatten

def ok_200 : HTTPMessage := response "HTTP/1.1 200 OK"

def not_found_404 : HTTPMessage := response "HTTP/1.1 404 Not Found"

def moved_301 : HTTPMessage := response "HTTP/1.1 301 Moved Permanently"

/-- Two entries that differ after the `?` only. -/
def store_a : Store :=
  [(request "GET /a?x=1 HTTP/1.1" "example.com", ok_200),
   (request "GET /a?x=2 HTTP/1.1" "example.com", not_found_404)]

def req_a2 : HTTPMessage := request "GET /a?x=2 HTTP/1.1" "example.com"

/-- Three entries that differ after the `?` only; the last two score the same
against `req_b`. -/
def store_b : Store :=
  [(request "GET /a?x=1 HTTP/1.1" "example.com", ok_200),
   (request "GET /a?x=2&y=1 HTTP/1.1" "example.com", not_found_404),
   (request "GET /a?x=2&y=2 HTTP/1.1" "example.com", moved_301)]

def req_b : HTTPMessage := request "GET /a?x=2&y=3 HTTP/1.1" "example.com"

def store_img : Store := [(request "GET /img?v=1 HTTP/1.1" "x.com", ok_200)]

def req_img : HTTPMessage := request "GET /img?v=2 HTTP/1.1" "x.com"

/-- An entry whose request has an empty first line. -/
def entry_empty_line : HTTPMessage × HTTPMessage := (request "" "x.com", ok_200)

def store_empty_line : Store := [entry_empty_line]

def req_query_only : HTTPMessage := request "?v=2" "x.com"

def req_other : HTTPMessage := request "GET /other HTTP/1.1" "x.com"

/-- The archive `store_img` after `add_request` of `req_other`. -/
def store_img_other : Store :=
  [(request "GET /img?v=1 HTTP/1.1" "x.com", ok_200), (req_other, blank)]

/-- The archive `store_img_other` with its two entries in the other order. -/
def store_img_other_swapped : Store :=
  [(req_other, blank), (request "GET /img?v=1 HTTP/1.1" "x.com", ok_200)]

def store_host : Store := [(request "GET / HTTP/1.1" "a.com", ok_200)]

def req_host : HTTPMessage := request "GET / HTTP/1.1" "b.com"

/-! ## Machine integers -/

theorem to_unsigned_of_lt {n : Nat} (h : n < 2 ^ 32) : to_unsigned n = n :=
  Nat.mod_eq_of_lt h

theorem to_int_of_lt {n : Nat} (h : n < 2 ^ 31) : to_int n = (n : Int) := by
  have h32 : n % 2 ^ 32 = n := Nat.mod_eq_of_lt (by omega)
  unfold to_int
  rw [h32, if_pos h]

theorem to_size_t_of_nonneg {i : Int} (h0 : 0 ≤ i) (h1 : i < 2 ^ 64) :
    to_size_t i = i.toNat := by
  unfold to_size_t
  rw [Int.emod_eq_of_lt h0 h1]

theorem to_size_t_natCast {n : Nat} (h : n < 2 ^ 64) : to_size_t (n : Int) = n := by
  rw [to_size_t_of_nonneg (by omega) (by omega)]
  simp

theorem to_size_t_of_neg {i : Int} (h0 : i < 0) (h1 : -(2 ^ 31) ≤ i) :
    2 ^ 64 - 2 ^ 31 ≤ to_size_t i := by
  unfold to_size_t
  have h : i % 2 ^ 64 = i + 2 ^ 64 := by
    rw [← Int.add_emod_self]
    exact Int.emod_eq_of_lt (by omega) (by omega)
  rw [h]
  omega

/-! ## `match_size` -/

/-- The loop of `match_size` exits when the shorter string has fewer than
`2 ^ 32` characters and enough fuel is left; it returns the first position
from `i` on at which the strings differ, or else `max_match`. -/
theorem match_size_loop_ok (first second : List Char) (max_match : Nat)
    (h1 : max_match ≤ first.length) (h2 : max_match ≤ second.length)
    (h3 : max_match < 2 ^ 32) :
    ∀ (fuel i : Nat), max_match - i < fuel →
      ∃ r, match_size_loop first second max_match fuel i = .ok (to_int r) ∧
        r ≤ max_match ∧ min i max_match ≤ r ∧
        (r < max_match → first[r]? ≠ second[r]?) ∧
        (∀ j, i ≤ j → j < r → first[j]? = second[j]?) := by
  intro fuel
  induction fuel with
  | zero => intro i h; omega
  | succ fuel ih =>
    intro i hfuel
    by_cases hi : i < max_match
    · obtain ⟨a, ha⟩ : ∃ a, first[i]? = some a :=
        ⟨first[i], List.getElem?_eq_getElem (by omega)⟩
      obtain ⟨b, hb⟩ : ∃ b, second[i]? = some b :=
        ⟨second[i], List.getElem?_eq_getElem (by omega)⟩
      by_cases hab : a = b
      · obtain ⟨r, hr, hle, hmin, hdiff, heq⟩ := ih (i + 1) (by omega)
        refine ⟨r, ?_, hle, by omega, hdiff, ?_⟩
        · simp only [match_size_loop, hi, if_true, ha, hb, hab, ne_eq, not_true_eq_false,
            if_false]
          rw [to_unsigned_of_lt (by omega)]
          exact hr
        · intro j hij hjr
          by_cases hj : j = i
          · rw [hj, ha, hb, hab]
          · exact heq j (by omega) hjr
      · refine ⟨i, ?_, by omega, by omega, ?_, ?_⟩
        · simp only [match_size_loop, hi, if_true, ha, hb, ne_eq, hab, not_false_eq_true]
        · intro _
          rw [ha, hb]
          exact fun h => hab (Option.some.inj h)
        · intro j hij hji
          omega
    · refine ⟨max_match, ?_, le_refl _, by omega, ?_, ?_⟩
      · simp only [match_size_loop, hi, if_false]
      · intro h
        omega
      · intro j hij hjr
        omega

/-- The call `match_size first second` returns when one of the two strings has
fewer than `2 ^ 32` characters. -/
theorem match_size_ok (first second : List Char)
    (h : min first.length second.length < 2 ^ 32) :
    ∃ r, match_size first second = .ok (to_int r) ∧
      r ≤ min first.length second.length ∧
      min (to_unsigned (find_result first)) (min first.length second.length) ≤ r ∧
      (r < min first.length second.length → first[r]? ≠ second[r]?) ∧
      (∀ j, to_unsigned (find_result first) ≤ j → j < r → first[j]? = second[j]?) :=
  match_size_loop_ok first second _ (Nat.min_le_left _ _) (Nat.min_le_right _ _) h _ _
    (by omega)

/-! ## One iteration of the loop of `find_request` -/

theorem is_candidate_of_is_identical {request : HTTPMessage} {x : HTTPMessage × HTTPMessage}
    (h : is_identical request x) : is_candidate request x :=
  ⟨by rw [h.1], h.2⟩

theorem match_size_returns (first second : List Char) (h : second.length < 2 ^ 32) :
    ∃ v, match_size first second = .ok v := by
  obtain ⟨r, hr, _⟩ := match_size_ok first second (by omega)
  exact ⟨_, hr⟩

theorem find_request_loop_nil (str : HTTPMessage → List Char) (request : HTTPMessage)
    (pm : Int × List Char) :
    find_request_loop str request [] pm =
      if pm.1 ≠ 0 then .ok (true, pm.2) else .ok (false, []) := rfl

theorem find_request_loop_skip (str : HTTPMessage → List Char) (request : HTTPMessage)
    (x : HTTPMessage × HTTPMessage) (rest : Store) (pm : Int × List Char)
    (h : ¬ is_candidate request x) :
    find_request_loop str request (x :: rest) pm = find_request_loop str request rest pm := by
  unfold is_candidate at h
  rw [find_request_loop]
  by_cases h1 : remove_query x.1.first_line = remove_query request.first_line
  · have h2 : ¬ get_header_value x.1 Host = get_header_value request Host := fun h2 => h ⟨h1, h2⟩
    rw [if_pos h1, if_neg h2]
  · rw [if_neg h1]

theorem find_request_loop_exact (str : HTTPMessage → List Char) (request : HTTPMessage)
    (x : HTTPMessage × HTTPMessage) (rest : Store) (pm : Int × List Char)
    (h : is_identical request x) :
    find_request_loop str request (x :: rest) pm = .ok (true, str x.2) := by
  have hc := is_candidate_of_is_identical h
  rw [find_request_loop, if_pos hc.1, if_pos hc.2, if_pos h.1]

theorem find_request_loop_score (str : HTTPMessage → List Char) (request : HTTPMessage)
    (x : HTTPMessage × HTTPMessage) (rest : Store) (pm : Int × List Char)
    (hc : is_candidate request x) (hi : ¬ is_identical request x) :
    find_request_loop str request (x :: rest) pm =
      match match_size x.1.first_line request.first_line with
      | .fault f => .fault f
      | .ok match_val =>
        if match_val > pm.1 then find_request_loop str request rest (match_val, str x.2)
        else find_request_loop str request rest pm := by
  have h3 : ¬ x.1.first_line = request.first_line := fun h3 => hi ⟨h3, hc.2⟩
  rw [find_request_loop, if_pos hc.1, if_pos hc.2, if_neg h3]

/-- The three ways an iteration of the loop can go when the incoming first
line has fewer than `2 ^ 32` characters. -/
theorem find_request_loop_cons (str : HTTPMessage → List Char) (request : HTTPMessage)
    (hlen : request.first_line.length < 2 ^ 32)
    (x : HTTPMessage × HTTPMessage) (rest : Store) (pm : Int × List Char) :
    (is_identical request x ∧
        find_request_loop str request (x :: rest) pm = .ok (true, str x.2)) ∨
      (¬ is_candidate request x ∧
        find_request_loop str request (x :: rest) pm = find_request_loop str request rest pm) ∨
      (is_candidate request x ∧ ¬ is_identical request x ∧
        ∃ v, match_size x.1.first_line request.first_line = .ok v ∧
          ((pm.1 < v ∧ find_request_loop str request (x :: rest) pm =
              find_request_loop str request rest (v, str x.2)) ∨
            (v ≤ pm.1 ∧ find_request_loop str request (x :: rest) pm =
              find_request_loop str request rest pm))) := by
  by_cases hi : is_identical request x
  · exact Or.inl ⟨hi, find_request_loop_exact str request x rest pm hi⟩
  · by_cases hc : is_candidate request x
    · obtain ⟨v, hv⟩ := match_size_returns x.1.first_line request.first_line hlen
      refine Or.inr (Or.inr ⟨hc, hi, v, hv, ?_⟩)
      have hs := find_request_loop_score str request x rest pm hc hi
      rw [hv] at hs
      by_cases hlt : pm.1 < v
      · left
        refine ⟨hlt, ?_⟩
        rw [hs]
        exact if_pos hlt
      · right
        refine ⟨by omega, ?_⟩
        rw [hs]
        exact if_neg hlt
    · exact Or.inr (Or.inl ⟨hc, find_request_loop_skip str request x rest pm hc⟩)

/-! ## The loop of `find_request` over a whole archive -/

/-- The loop returns the response of the first identical entry. -/
theorem find_request_loop_first_identical (str : HTTPMessage → List Char)
    (request : HTTPMessage) (hlen : request.first_line.length < 2 ^ 32) :
    ∀ (archive_ : Store) (k : Nat) (e : HTTPMessage × HTTPMessage) (pm : Int × List Char),
      archive_[k]? = some e → is_identical request e →
      (∀ j x, j < k → archive_[j]? = some x → ¬ is_identical request x) →
      find_request_loop str request archive_ pm = .ok (true, str e.2) := by
  intro archive_
  induction archive_ with
  | nil => intro k e pm hk; simp at hk
  | cons x rest ih =>
    intro k e pm hk he hfirst
    cases k with
    | zero =>
      simp only [List.getElem?_cons_zero, Option.some.injEq] at hk
      subst hk
      exact find_request_loop_exact str request x rest pm he
    | succ k =>
      simp only [List.getElem?_cons_succ] at hk
      have hx : ¬ is_identical request x := hfirst 0 x (Nat.succ_pos k) (by simp)
      have hrest : ∀ j y, j < k → rest[j]? = some y → ¬ is_identical request y := by
        intro j y hj hy
        exact hfirst (j + 1) y (by omega) (by simpa using hy)
      rcases find_request_loop_cons str request hlen x rest pm with
        ⟨hi, _⟩ | ⟨_, heq⟩ | ⟨_, _, v, _, ⟨_, heq⟩ | ⟨_, heq⟩⟩
      · exact absurd hi hx
      · rw [heq]; exact ih k e pm hk he hrest
      · rw [heq]; exact ih k e _ hk he hrest
      · rw [heq]; exact ih k e pm hk he hrest

/-- Entries that score no more than the best score so far leave it as it is. -/
theorem find_request_loop_no_better (str : HTTPMessage → List Char)
    (request : HTTPMessage) (hlen : request.first_line.length < 2 ^ 32) :
    ∀ (archive_ : Store) (pm : Int × List Char),
      (∀ x ∈ archive_, ¬ is_identical request x) →
      (∀ x ∈ archive_, is_candidate request x →
        ∀ w, match_size x.1.first_line request.first_line = .ok w → w ≤ pm.1) →
      find_request_loop str request archive_ pm = find_request_loop str request [] pm := by
  intro archive_
  induction archive_ with
  | nil => intro pm _ _; rfl
  | cons x rest ih =>
    intro pm hne hle
    have hne2 : ∀ y ∈ rest, ¬ is_identical request y :=
      fun y hy => hne y (List.mem_cons_of_mem _ hy)
    have hle2 : ∀ y ∈ rest, is_candidate request y →
        ∀ w, match_size y.1.first_line request.first_line = .ok w → w ≤ pm.1 :=
      fun y hy => hle y (List.mem_cons_of_mem _ hy)
    rcases find_request_loop_cons str request hlen x rest pm with
      ⟨hi, _⟩ | ⟨_, heq⟩ | ⟨hc, _, v, hv, ⟨hlt, _⟩ | ⟨_, heq⟩⟩
    · exact absurd hi (hne x (List.mem_cons_self _ _))
    · rw [heq]; exact ih pm hne2 hle2
    · have := hle x (List.mem_cons_self _ _) hc v hv
      omega
    · rw [heq]; exact ih pm hne2 hle2

/-- The loop returns the response of the earliest entry that attains the
highest score, when that score beats the starting value and is not 0. -/
theorem find_request_loop_best (str : HTTPMessage → List Char)
    (request : HTTPMessage) (hlen : request.first_line.length < 2 ^ 32) :
    ∀ (archive_ : Store) (k : Nat) (e : HTTPMessage × HTTPMessage) (v : Int)
      (pm : Int × List Char),
      (∀ x ∈ archive_, ¬ is_identical request x) →
      archive_[k]? = some e → is_candidate request e →
      match_size e.1.first_line request.first_line = .ok v → pm.1 < v → v ≠ 0 →
      (∀ x ∈ archive_, is_candidate request x →
        ∀ w, match_size x.1.first_line request.first_line = .ok w → w ≤ v) →
      (∀ j x, j < k → archive_[j]? = some x → is_candidate request x →
        ∀ w, match_size x.1.first_line request.first_line = .ok w → w < v) →
      find_request_loop str request archive_ pm = .ok (true, str e.2) := by
  intro archive_
  induction archive_ with
  | nil => intro k e v pm _ hk; simp at hk
  | cons x rest ih =>
    intro k e v pm hne hk hc hv hpm hv0 hmax hfirst
    have hne2 : ∀ y ∈ rest, ¬ is_identical request y :=
      fun y hy => hne y (List.mem_cons_of_mem _ hy)
    have hmax2 : ∀ y ∈ rest, is_candidate request y →
        ∀ w, match_size y.1.first_line request.first_line = .ok w → w ≤ v :=
      fun y hy => hmax y (List.mem_cons_of_mem _ hy)
    have hx : ¬ is_identical request x := hne x (List.mem_cons_self _ _)
    cases k with
    | zero =>
      simp only [List.getElem?_cons_zero, Option.some.injEq] at hk
      subst hk
      have hs := find_request_loop_score str request x rest pm hc hx
      rw [hv] at hs
      simp only [gt_iff_lt, hpm, if_true] at hs
      rw [hs, find_request_loop_no_better str request hlen rest (v, str x.2) hne2 hmax2,
        find_request_loop_nil]
      exact if_pos hv0
    | succ k =>
      simp only [List.getElem?_cons_succ] at hk
      have hfirst2 : ∀ j y, j < k → rest[j]? = some y → is_candidate request y →
          ∀ w, match_size y.1.first_line request.first_line = .ok w → w < v := by
        intro j y hj hy
        exact hfirst (j + 1) y (by omega) (by simpa using hy)
      rcases find_request_loop_cons str request hlen x rest pm with
        ⟨hi, _⟩ | ⟨_, heq⟩ | ⟨hcx, _, w, hw, ⟨_, heq⟩ | ⟨_, heq⟩⟩
      · exact absurd hi hx
      · rw [heq]; exact ih k e v pm hne2 hk hc hv hpm hv0 hmax2 hfirst2
      · rw [heq]
        have hwv : w < v := hfirst 0 x (Nat.succ_pos k) (by simp) hcx w hw
        exact ih k e v (w, str x.2) hne2 hk hc hv hwv hv0 hmax2 hfirst2
      · rw [heq]; exact ih k e v pm hne2 hk hc hv hpm hv0 hmax2 hfirst2

/-! ## `remove_query` and the sign of the score -/

theorem remove_query_nil : remove_query [] = [] := rfl

theorem remove_query_cons (c : Char) (s : List Char) :
    remove_query (c :: s) = if c = '?' then [] else c :: remove_query s := by
  unfold remove_query
  by_cases hc : c = '?'
  · simp [find_query, hc]
  · cases hs : find_query s <;> simp [find_query, hc, hs]

/-- Two non-empty lines that agree up to their first `?` start with the same
character. -/
theorem head_eq_of_remove_query_eq (a b : Char) (s t : List Char)
    (h : remove_query (a :: s) = remove_query (b :: t)) : a = b := by
  rw [remove_query_cons, remove_query_cons] at h
  by_cases ha : a = '?'
  · by_cases hb : b = '?'
    · rw [ha, hb]
    · rw [if_pos ha, if_neg hb] at h
      exact absurd h (by simp)
  · by_cases hb : b = '?'
    · rw [if_neg ha, if_pos hb] at h
      exact absurd h (by simp)
    · rw [if_neg ha, if_neg hb] at h
      exact (List.cons.inj h).1

/-- The score of two non-empty lines that agree up to their first `?` is
positive, when the second has fewer than `2 ^ 31` characters. -/
theorem match_size_pos (first second : List Char)
    (hrq : remove_query first = remove_query second)
    (h1 : first ≠ []) (h2 : second ≠ []) (hlen : second.length < 2 ^ 31) :
    ∃ v, match_size first second = .ok v ∧ 0 < v := by
  obtain ⟨r, hr, hle, _, hdiff, _⟩ := match_size_ok first second (by omega)
  refine ⟨to_int r, hr, ?_⟩
  have hmin : r ≤ second.length := le_trans hle (Nat.min_le_right _ _)
  rw [to_int_of_lt (by omega)]
  cases first with
  | nil => exact absurd rfl h1
  | cons a s =>
    cases second with
    | nil => exact absurd rfl h2
    | cons b t =>
      have hab : a = b := head_eq_of_remove_query_eq a b s t hrq
      by_cases hr0 : r = 0
      · exfalso
        subst hr0
        exact hdiff (by simp) (by simp [hab])
      · omega

/-! ## When the loop of `find_request` reports a match -/

/-- The loop reports a match, with the best response so far or a stored
response, once the best score so far is positive or an entry is identical or
scores more than 0. -/
theorem find_request_loop_match (str : HTTPMessage → List Char)
    (request : HTTPMessage) (hlen : request.first_line.length < 2 ^ 32) :
    ∀ (archive_ : Store) (pm : Int × List Char), 0 ≤ pm.1 →
      (0 < pm.1 ∨ ∃ x ∈ archive_, is_identical request x ∨
        (is_candidate request x ∧
          ∃ v, match_size x.1.first_line request.first_line = .ok v ∧ 0 < v)) →
      ∃ r, find_request_loop str request archive_ pm = .ok (true, r) ∧
        ((0 < pm.1 ∧ r = pm.2) ∨ ∃ x ∈ archive_, r = str x.2) := by
  intro archive_
  induction archive_ with
  | nil =>
    intro pm _ h
    rcases h with h | ⟨x, hx, _⟩
    · refine ⟨pm.2, ?_, Or.inl ⟨h, rfl⟩⟩
      rw [find_request_loop_nil]
      exact if_pos (by omega)
    · simp at hx
  | cons x rest ih =>
    intro pm hpm h
    have lift : ∀ (pm2 : Int × List Char) (r : List Char),
        ((0 < pm2.1 ∧ r = pm2.2) ∨ ∃ y ∈ rest, r = str y.2) →
        (pm2 = pm ∨ pm2.2 = str x.2) →
        ((0 < pm.1 ∧ r = pm.2) ∨ ∃ y ∈ x :: rest, r = str y.2) := by
      intro pm2 r hr hpm2
      rcases hr with ⟨h0, hr⟩ | ⟨y, hy, hr⟩
      · rcases hpm2 with hpm2 | hpm2
        · subst hpm2; exact Or.inl ⟨h0, hr⟩
        · exact Or.inr ⟨x, List.mem_cons_self _ _, by rw [hr, hpm2]⟩
      · exact Or.inr ⟨y, List.mem_cons_of_mem _ hy, hr⟩
    rcases find_request_loop_cons str request hlen x rest pm with
      ⟨_, heq⟩ | ⟨hnc, heq⟩ | ⟨_, hni, w, hw, ⟨hlt, heq⟩ | ⟨hge, heq⟩⟩
    · exact ⟨str x.2, heq, Or.inr ⟨x, List.mem_cons_self _ _, rfl⟩⟩
    · have h2 : 0 < pm.1 ∨ ∃ y ∈ rest, is_identical request y ∨
          (is_candidate request y ∧
            ∃ v, match_size y.1.first_line request.first_line = .ok v ∧ 0 < v) := by
        rcases h with h | ⟨y, hy, hyp⟩
        · exact Or.inl h
        · rcases List.mem_cons.mp hy with hyx | hyr
          · subst hyx
            rcases hyp with hi | ⟨hc, _⟩
            · exact absurd (is_candidate_of_is_identical hi) hnc
            · exact absurd hc hnc
          · exact Or.inr ⟨y, hyr, hyp⟩
      obtain ⟨r, hr, hrr⟩ := ih pm hpm h2
      exact ⟨r, by rw [heq]; exact hr, lift pm r hrr (Or.inl rfl)⟩
    · obtain ⟨r, hr, hrr⟩ := ih (w, str x.2) (by simp only; omega) (Or.inl (by simp only; omega))
      exact ⟨r, by rw [heq]; exact hr, lift (w, str x.2) r hrr (Or.inr rfl)⟩
    · have h2 : 0 < pm.1 ∨ ∃ y ∈ rest, is_identical request y ∨
          (is_candidate request y ∧
            ∃ v, match_size y.1.first_line request.first_line = .ok v ∧ 0 < v) := by
        rcases h with h | ⟨y, hy, hyp⟩
        · exact Or.inl h
        · rcases List.mem_cons.mp hy with hyx | hyr
          · subst hyx
            rcases hyp with hi | ⟨_, v, hv, hv0⟩
            · exact absurd hi hni
            · rw [hw] at hv
              cases hv
              exact Or.inl (by omega)
          · exact Or.inr ⟨y, hyr, hyp⟩
      obtain ⟨r, hr, hrr⟩ := ih pm hpm h2
      exact ⟨r, by rw [heq]; exact hr, lift pm r hrr (Or.inl rfl)⟩

/-- Entries that do not pass the filters leave the best match so far as it is. -/
theorem find_request_loop_no_candidate (str : HTTPMessage → List Char)
    (request : HTTPMessage) :
    ∀ (archive_ : Store) (pm : Int × List Char),
      (∀ x ∈ archive_, ¬ is_candidate request x) →
      find_request_loop str request archive_ pm = find_request_loop str request [] pm := by
  intro archive_
  induction archive_ with
  | nil => intro pm _; rfl
  | cons x rest ih =>
    intro pm h
    rw [find_request_loop_skip str request x rest pm (h x (List.mem_cons_self _ _))]
    exact ih pm (fun y hy => h y (List.mem_cons_of_mem _ hy))

/-! ## When the loop of `find_request` reports no match -/

/-- A loop that reports no match has met no identical entry, and it goes on
into any entries that follow. -/
theorem find_request_loop_false (str : HTTPMessage → List Char) (request : HTTPMessage) :
    ∀ (archive_ : Store) (pm : Int × List Char) (r : List Char),
      find_request_loop str request archive_ pm = .ok (false, r) →
      (∀ x ∈ archive_, ¬ is_identical request x) ∧
        ∀ tail : Store, ∃ pm2,
          find_request_loop str request (archive_ ++ tail) pm =
            find_request_loop str request tail pm2 := by
  intro archive_
  induction archive_ with
  | nil =>
    intro pm r _
    exact ⟨fun x hx => absurd hx (List.not_mem_nil x), fun tail => ⟨pm, rfl⟩⟩
  | cons x rest ih =>
    intro pm r h
    have step : ∀ pm1, find_request_loop str request rest pm1 = .ok (false, r) →
        ¬ is_identical request x →
        (∀ tail : Store, find_request_loop str request (x :: (rest ++ tail)) pm =
          find_request_loop str request (rest ++ tail) pm1) →
        (∀ y ∈ x :: rest, ¬ is_identical request y) ∧
          ∀ tail : Store, ∃ pm2,
            find_request_loop str request (x :: rest ++ tail) pm =
              find_request_loop str request tail pm2 := by
      intro pm1 h1 hx hstep
      obtain ⟨hne, happ⟩ := ih pm1 r h1
      refine ⟨?_, ?_⟩
      · intro y hy
        rcases List.mem_cons.mp hy with hyx | hyr
        · rw [hyx]; exact hx
        · exact hne y hyr
      · intro tail
        obtain ⟨pm2, h2⟩ := happ tail
        exact ⟨pm2, by rw [List.cons_append, hstep tail, h2]⟩
    by_cases hi : is_identical request x
    · rw [find_request_loop_exact str request x rest pm hi] at h
      simp at h
    · by_cases hc : is_candidate request x
      · rw [find_request_loop_score str request x rest pm hc hi] at h
        cases hm : match_size x.1.first_line request.first_line with
        | fault f => rw [hm] at h; simp at h
        | ok v =>
          rw [hm] at h
          by_cases hlt : v > pm.1
          · simp only [hlt, if_true] at h
            refine step (v, str x.2) h hi ?_
            intro tail
            rw [find_request_loop_score str request x _ pm hc hi, hm]
            simp only [hlt, if_true]
          · simp only [hlt, if_false] at h
            refine step pm h hi ?_
            intro tail
            rw [find_request_loop_score str request x _ pm hc hi, hm]
            simp only [hlt, if_false]
      · rw [find_request_loop_skip str request x rest pm hc] at h
        exact step pm h hi (fun tail => find_request_loop_skip str request x _ pm hc)

/-! ## Claims about `find_request` -/

/-- C1. When the incoming first line has fewer than `2 ^ 32` characters and
the entry at position `k` is the first one whose request has the first line
and the `Host` value of the incoming request, `find_request` returns `true`
with the response of that entry, whatever the other entries are. -/
theorem find_request_exact_first (str : HTTPMessage → List Char) (archive_ : Store)
    (incoming_req : HTTPMessage) (k : Nat) (e : HTTPMessage × HTTPMessage)
    (hlen : incoming_req.first_line.length < 2 ^ 32)
    (hk : archive_[k]? = some e)
    (hline : e.1.first_line = incoming_req.first_line)
    (hhost : get_header_value e.1 Host = get_header_value incoming_req Host)
    (hfirst : ∀ j x, j < k → archive_[j]? = some x →
      ¬ (x.1.first_line = incoming_req.first_line ∧
        get_header_value x.1 Host = get_header_value incoming_req Host)) :
    find_request str archive_ incoming_req = .ok (true, str e.2) :=
  find_request_loop_first_identical str incoming_req hlen archive_ k e (0, []) hk
    ⟨hline, hhost⟩ hfirst

/-- C2. When the incoming first line has fewer than `2 ^ 32` characters and no
entry is identical to the incoming request in first line and `Host`: every
candidate gets a score from `match_size`; if the candidate at position `k` has
a score `v > 0` that no candidate exceeds and that no earlier candidate
attains, `find_request` returns `true` with its response; if no candidate
scores more than 0 (there is none, or the highest score is 0), `find_request`
returns `false` with the empty string. -/
theorem find_request_best_candidate (str : HTTPMessage → List Char) (archive_ : Store)
    (incoming_req : HTTPMessage)
    (hlen : incoming_req.first_line.length < 2 ^ 32)
    (hne : ∀ x ∈ archive_, ¬ is_identical incoming_req x) :
    (∀ x ∈ archive_, is_candidate incoming_req x →
        ∃ w, match_size x.1.first_line incoming_req.first_line = .ok w) ∧
      (∀ (k : Nat) (e : HTTPMessage × HTTPMessage) (v : Int),
        archive_[k]? = some e → is_candidate incoming_req e →
        match_size e.1.first_line incoming_req.first_line = .ok v → 0 < v →
        (∀ x ∈ archive_, is_candidate incoming_req x →
          ∀ w, match_size x.1.first_line incoming_req.first_line = .ok w → w ≤ v) →
        (∀ j x, j < k → archive_[j]? = some x → is_candidate incoming_req x →
          ∀ w, match_size x.1.first_line incoming_req.first_line = .ok w → w < v) →
        find_request str archive_ incoming_req = .ok (true, str e.2)) ∧
      ((∀ x ∈ archive_, is_candidate incoming_req x →
          ∀ w, match_size x.1.first_line incoming_req.first_line = .ok w → w ≤ 0) →
        find_request str archive_ incoming_req = .ok (false, [])) := by
  refine ⟨?_, ?_, ?_⟩
  · intro x _ _
    exact match_size_returns x.1.first_line incoming_req.first_line hlen
  · intro k e v hk hc hv hpos hmax hfirst
    exact find_request_loop_best str incoming_req hlen archive_ k e v (0, []) hne hk hc hv
      hpos (by omega) hmax hfirst
  · intro hall
    unfold find_request
    rw [find_request_loop_no_better str incoming_req hlen archive_ (0, []) hne hall]
    rfl

theorem match_size_le_of_eq (first second : List Char) (v bound : Int)
    (h : match_size first second = .ok v) (hv : v ≤ bound) :
    ∀ w, match_size first second = .ok w → w ≤ bound := by
  intro w hw
  rw [h] at hw
  cases hw
  exact hv

theorem match_size_lt_of_eq (first second : List Char) (v bound : Int)
    (h : match_size first second = .ok v) (hv : v < bound) :
    ∀ w, match_size first second = .ok w → w < bound := by
  intro w hw
  rw [h] at hw
  cases hw
  exact hv

/-- C1, on the archive of the spec: the second entry is identical to the
incoming request and the first one is a candidate that is visited before it. -/
theorem find_request_exact_first_witness :
    find_request sample_str store_a req_a2 = .ok (true, sample_str not_found_404) :=
  find_request_exact_first sample_str store_a req_a2 1
    (request "GET /a?x=2 HTTP/1.1" "example.com", not_found_404)
    (by decide) (by decide) (by decide) (by decide)
    (by
      intro j x hj hx
      obtain rfl : j = 0 := by omega
      simp only [store_a, List.getElem?_cons_zero, Option.some.injEq] at hx
      subst hx
      decide)

/-- C2, on an archive of three candidates that score 9, 13 and 13: the second
entry is returned. -/
theorem find_request_best_candidate_witness :
    find_request sample_str store_b req_b = .ok (true, sample_str not_found_404) :=
  (find_request_best_candidate sample_str store_b req_b (by decide) (by decide)).2.1 1
    (request "GET /a?x=2&y=1 HTTP/1.1" "example.com", not_found_404) 13
    (by decide) (by decide) (by decide) (by decide)
    (by
      intro x hx _
      simp only [store_b, List.mem_cons, List.mem_singleton, List.not_mem_nil, or_false] at hx
      rcases hx with rfl | rfl | rfl
      · exact match_size_le_of_eq _ _ 9 13 (by decide) (by decide)
      · exact match_size_le_of_eq _ _ 13 13 (by decide) (by decide)
      · exact match_size_le_of_eq _ _ 13 13 (by decide) (by decide))
    (by
      intro j x hj hx _
      obtain rfl : j = 0 := by omega
      simp only [store_b, List.getElem?_cons_zero, Option.some.injEq] at hx
      subst hx
      exact match_size_lt_of_eq _ _ 9 13 (by decide) (by decide))

/-- C3 as stated fails: the stored entry has the `Host` value and the
query-free first line (the empty string) of the incoming request `?v=2`, and
`find_request` returns `false`. -/
theorem find_request_candidate_no_match :
    entry_empty_line ∈ store_empty_line ∧
      remove_query entry_empty_line.1.first_line = remove_query req_query_only.first_line ∧
      get_header_value entry_empty_line.1 Host = get_header_value req_query_only Host ∧
      find_request sample_str store_empty_line req_query_only = .ok (false, []) := by
  decide

/-- C3, amended. When the incoming first line has fewer than `2 ^ 31`
characters and some stored entry has the `Host` value and the query-free first
line of the incoming request, and its first line is identical to the incoming
one or both first lines are non-empty, `find_request` returns `true` with the
response of a stored entry. -/
theorem find_request_candidate_match (str : HTTPMessage → List Char) (archive_ : Store)
    (incoming_req : HTTPMessage) (x : HTTPMessage × HTTPMessage)
    (hlen : incoming_req.first_line.length < 2 ^ 31)
    (hx : x ∈ archive_)
    (hquery : remove_query x.1.first_line = remove_query incoming_req.first_line)
    (hhost : get_header_value x.1 Host = get_header_value incoming_req Host)
    (hlines : x.1.first_line = incoming_req.first_line ∨
      (x.1.first_line ≠ [] ∧ incoming_req.first_line ≠ [])) :
    ∃ y ∈ archive_, find_request str archive_ incoming_req = .ok (true, str y.2) := by
  have hsome : ∃ y ∈ archive_, is_identical incoming_req y ∨
      (is_candidate incoming_req y ∧
        ∃ v, match_size y.1.first_line incoming_req.first_line = .ok v ∧ 0 < v) := by
    refine ⟨x, hx, ?_⟩
    rcases hlines with h | ⟨h1, h2⟩
    · exact Or.inl ⟨h, hhost⟩
    · exact Or.inr ⟨⟨hquery, hhost⟩, match_size_pos _ _ hquery h1 h2 hlen⟩
  obtain ⟨r, hr, hrr⟩ := find_request_loop_match str incoming_req (by omega) archive_ (0, [])
    (le_refl _) (Or.inr hsome)
  rcases hrr with ⟨h0, _⟩ | ⟨y, hy, hry⟩
  · exact absurd h0 (lt_irrefl _)
  · exact ⟨y, hy, by rw [← hry]; exact hr⟩

/-- C3 amended, on the archive of the spec: the first lines differ after the
`?` only and the stored response is returned. -/
theorem find_request_candidate_match_witness :
    find_request sample_str store_img req_img = .ok (true, sample_str ok_200) := by
  obtain ⟨y, hy, h⟩ := find_request_candidate_match sample_str store_img req_img
    (request "GET /img?v=1 HTTP/1.1" "x.com", ok_200)
    (by decide) (by decide) (by decide) (by decide) (Or.inr (by decide))
  simp only [store_img, List.mem_singleton] at hy
  subst hy
  exact h

/-- C4. When no stored entry has the `Host` value of the incoming request
(as when the archive is empty), `find_request` returns `false` with the empty
string. -/
theorem find_request_host_mismatch (str : HTTPMessage → List Char) (archive_ : Store)
    (incoming_req : HTTPMessage)
    (hhost : ∀ x ∈ archive_,
      get_header_value x.1 Host ≠ get_header_value incoming_req Host) :
    find_request str archive_ incoming_req = .ok (false, []) := by
  unfold find_request
  rw [find_request_loop_no_candidate str incoming_req archive_ (0, [])
    (fun x hx hc => hhost x hx hc.2)]
  rfl

/-- C4, on the archive of the spec: the same first line under another `Host`. -/
theorem find_request_host_mismatch_witness :
    find_request sample_str store_host req_host = .ok (false, []) :=
  find_request_host_mismatch sample_str store_host req_host (by decide)

/-! ## The two ways `add_request` returns, and the way `add_response` returns -/

theorem add_request_of_match (str : HTTPMessage → List Char) (archive_ : Store)
    (incoming_req : HTTPMessage) (r : List Char)
    (h : find_request str archive_ incoming_req = .ok (true, r)) :
    add_request str archive_ incoming_req = .ok (archive_, -1) := by
  unfold add_request
  rw [h]
  rfl

theorem add_request_of_no_match (str : HTTPMessage → List Char) (archive_ : Store)
    (incoming_req : HTTPMessage) (r : List Char)
    (h : find_request str archive_ incoming_req = .ok (false, r)) :
    add_request str archive_ incoming_req =
      .ok (archive_ ++ [(incoming_req, blank)], to_int archive_.length) := by
  unfold add_request
  rw [h]
  simp

theorem add_request_cases (str : HTTPMessage → List Char) (archive_ next : Store)
    (incoming_req : HTTPMessage) (index : Int)
    (h : add_request str archive_ incoming_req = .ok (next, index)) :
    (next = archive_ ∧ index = -1 ∧
        ∃ r, find_request str archive_ incoming_req = .ok (true, r)) ∨
      (next = archive_ ++ [(incoming_req, blank)] ∧ index = to_int archive_.length ∧
        ∃ r, find_request str archive_ incoming_req = .ok (false, r)) := by
  cases hf : find_request str archive_ incoming_req with
  | fault f =>
    unfold add_request at h
    rw [hf] at h
    simp at h
  | ok res =>
    obtain ⟨b, r⟩ := res
    cases b with
    | true =>
      rw [add_request_of_match str archive_ incoming_req r hf] at h
      simp only [Outcome.ok.injEq, Prod.mk.injEq] at h
      exact Or.inl ⟨h.1.symm, h.2.symm, r, rfl⟩
    | false =>
      rw [add_request_of_no_match str archive_ incoming_req r hf] at h
      simp only [Outcome.ok.injEq, Prod.mk.injEq] at h
      exact Or.inr ⟨h.1.symm, h.2.symm, r, rfl⟩

theorem add_response_of_unset (archive_ : Store) (response : HTTPMessage) (index : Int)
    (entry : HTTPMessage × HTTPMessage)
    (h1 : archive_[to_size_t index]? = some entry) (h2 : entry.2.first_line = []) :
    add_response archive_ response index =
      (archive_.set (to_size_t index) (entry.1, response), .ok ()) := by
  unfold add_response
  rw [h1]
  simp only [h2, if_true]

theorem add_response_of_set (archive_ : Store) (response : HTTPMessage) (index : Int)
    (entry : HTTPMessage × HTTPMessage)
    (h1 : archive_[to_size_t index]? = some entry) (h2 : entry.2.first_line ≠ []) :
    add_response archive_ response index = (archive_, .fault .assertion) := by
  unfold add_response
  rw [h1]
  simp only [h2, if_false]

theorem add_response_of_none (archive_ : Store) (response : HTTPMessage) (index : Int)
    (h1 : archive_[to_size_t index]? = none) :
    add_response archive_ response index = (archive_, .fault .out_of_range) := by
  unfold add_response
  rw [h1]

theorem add_response_cases (archive_ next : Store) (response : HTTPMessage) (index : Int)
    (h : add_response archive_ response index = (next, .ok ())) :
    ∃ entry, archive_[to_size_t index]? = some entry ∧ entry.2.first_line = [] ∧
      next = archive_.set (to_size_t index) (entry.1, response) := by
  cases h1 : archive_[to_size_t index]? with
  | none =>
    rw [add_response_of_none archive_ response index h1] at h
    simp at h
  | some entry =>
    by_cases h2 : entry.2.first_line = []
    · rw [add_response_of_unset archive_ response index entry h1 h2] at h
      simp only [Prod.mk.injEq, and_true] at h
      exact ⟨entry, rfl, h2, h.symm⟩
    · rw [add_response_of_set archive_ response index entry h1 h2] at h
      simp at h

/-- Writing a response leaves the requests of the archive as they are. -/
theorem map_fst_set (archive_ : Store) (n : Nat) (entry : HTTPMessage × HTTPMessage)
    (response : HTTPMessage) (h : archive_[n]? = some entry) :
    (archive_.set n (entry.1, response)).map Prod.fst = archive_.map Prod.fst := by
  induction archive_ generalizing n with
  | nil => rfl
  | cons x rest ih =>
    cases n with
    | zero =>
      simp only [List.getElem?_cons_zero, Option.some.injEq] at h
      subst h
      rfl
    | succ n =>
      simp only [List.getElem?_cons_succ] at h
      simp only [List.set_cons_succ, List.map_cons, ih n h]

/-! ## Claims about `add_request` and `add_response` -/

/-- An archive that holds an entry identical to the request makes
`find_request` report a match. -/
theorem find_request_of_identical (str : HTTPMessage → List Char) (archive_ : Store)
    (incoming_req : HTTPMessage) (hlen : incoming_req.first_line.length < 2 ^ 32)
    (x : HTTPMessage × HTTPMessage) (hx : x ∈ archive_) (hi : is_identical incoming_req x) :
    ∃ r, find_request str archive_ incoming_req = .ok (true, r) := by
  obtain ⟨r, hr, _⟩ := find_request_loop_match str incoming_req hlen archive_ (0, [])
    (le_refl _) (Or.inr ⟨x, hx, Or.inl hi⟩)
  exact ⟨r, hr⟩

/-- C5. Round trip, for an archive of fewer than `2 ^ 31` entries (so that the
index fits the `int` that `add_request` returns): when `add_request` returns
an index other than -1, `add_response` at that index does not fault, and
`find_request` on the archive it leaves returns `true` with the serialised
response. -/
theorem add_request_add_response_find (str : HTTPMessage → List Char)
    (archive_ next : Store) (incoming_req response : HTTPMessage) (index : Int)
    (hsize : archive_.length < 2 ^ 31)
    (hadd : add_request str archive_ incoming_req = .ok (next, index))
    (hindex : index ≠ -1) :
    (add_response next response index).2 = .ok () ∧
      find_request str (add_response next response index).1 incoming_req =
        .ok (true, str response) := by
  rcases add_request_cases str archive_ next incoming_req index hadd with
    ⟨_, h, _⟩ | ⟨hnext, hidx, r, hfind⟩
  · exact absurd h hindex
  · rw [to_int_of_lt hsize] at hidx
    have hsz : to_size_t index = archive_.length := by
      rw [hidx]
      exact to_size_t_natCast (by omega)
    have hget : next[to_size_t index]? = some (incoming_req, blank) := by
      rw [hsz, hnext]
      exact List.getElem?_concat_length _ _
    rw [add_response_of_unset next response index (incoming_req, blank) hget rfl]
    refine ⟨rfl, ?_⟩
    have hset : next.set (to_size_t index) (incoming_req, response) =
        archive_ ++ [(incoming_req, response)] := by
      rw [hsz, hnext]
      simp
    simp only [hset]
    obtain ⟨_, happ⟩ := find_request_loop_false str incoming_req archive_ (0, []) r hfind
    obtain ⟨pm2, h2⟩ := happ [(incoming_req, response)]
    unfold find_request
    rw [h2]
    exact find_request_loop_exact str incoming_req (incoming_req, response) [] pm2 ⟨rfl, rfl⟩

/-- C5, on the archive `store_img` and a request that it does not hold. -/
theorem add_request_add_response_find_witness :
    (add_response store_img_other not_found_404 1).2 = .ok () ∧
      find_request sample_str (add_response store_img_other not_found_404 1).1 req_other =
        .ok (true, sample_str not_found_404) :=
  add_request_add_response_find sample_str store_img store_img_other req_other not_found_404 1
    (by decide) (by decide) (by decide)

/-- C6. For an archive of fewer than `2 ^ 31` entries, `add_request` returns
-1 exactly when `find_request` returns `true` (for an identical entry or for a
candidate of positive score alike), and the archive it leaves is then the one
it was given. -/
theorem add_request_refuses_iff (str : HTTPMessage → List Char) (archive_ : Store)
    (incoming_req : HTTPMessage) (hsize : archive_.length < 2 ^ 31) :
    ((∃ next, add_request str archive_ incoming_req = .ok (next, -1)) ↔
        ∃ r, find_request str archive_ incoming_req = .ok (true, r)) ∧
      ∀ next, add_request str archive_ incoming_req = .ok (next, -1) → next = archive_ := by
  have key : ∀ next, add_request str archive_ incoming_req = .ok (next, -1) →
      next = archive_ ∧ ∃ r, find_request str archive_ incoming_req = .ok (true, r) := by
    intro next h
    rcases add_request_cases str archive_ next incoming_req (-1) h with
      ⟨h1, _, h3⟩ | ⟨_, h2, _⟩
    · exact ⟨h1, h3⟩
    · rw [to_int_of_lt hsize] at h2
      omega
  refine ⟨⟨?_, ?_⟩, fun next h => (key next h).1⟩
  · rintro ⟨next, h⟩
    exact (key next h).2
  · rintro ⟨r, h⟩
    exact ⟨archive_, add_request_of_match str archive_ incoming_req r h⟩

/-- C6, on the archive of the spec, where `find_request` reports a match that
is not exact. -/
theorem add_request_refuses_iff_witness :
    add_request sample_str store_img req_img = .ok (store_img, -1) := by
  have h := add_request_refuses_iff sample_str store_img req_img (by decide)
  obtain ⟨next, hnext⟩ := h.1.mpr ⟨sample_str ok_200, by decide⟩
  have heq := h.2 next hnext
  rw [heq] at hnext
  exact hnext

/-- C7. For an archive of fewer than `2 ^ 31` entries on which `find_request`
reports no match, `add_request` returns the size of the archive and leaves the
archive with one more entry at the end, made of the request and of a response
with an empty first line; the entries before it are as they were. -/
theorem add_request_appends (str : HTTPMessage → List Char) (archive_ : Store)
    (incoming_req : HTTPMessage) (r : List Char)
    (hsize : archive_.length < 2 ^ 31)
    (hfind : find_request str archive_ incoming_req = .ok (false, r)) :
    add_request str archive_ incoming_req =
        .ok (archive_ ++ [(incoming_req, blank)], (archive_.length : Int)) ∧
      blank.first_line = [] ∧
      (archive_ ++ [(incoming_req, blank)]).length = archive_.length + 1 ∧
      (archive_ ++ [(incoming_req, blank)])[archive_.length]? = some (incoming_req, blank) ∧
      ∀ j, j < archive_.length → (archive_ ++ [(incoming_req, blank)])[j]? = archive_[j]? := by
  refine ⟨?_, rfl, ?_, ?_, ?_⟩
  · rw [add_request_of_no_match str archive_ incoming_req r hfind, to_int_of_lt hsize]
  · simp
  · exact List.getElem?_concat_length _ _
  · intro j hj
    exact List.getElem?_append_left hj

/-- C7, on the archive `store_img` and a request that it does not hold. -/
theorem add_request_appends_witness :
    add_request sample_str store_img req_other = .ok (store_img ++ [(req_other, blank)], 1) :=
  (add_request_appends sample_str store_img req_other [] (by decide) (by decide)).1

/-- C8. When the incoming first line has fewer than `2 ^ 32` characters and
the archive holds an entry whose request has the first line and the `Host`
value of the request, `add_request` returns -1 and leaves the archive as it is;
so does an `add_request` of the same request right after one that returned an
index. -/
theorem add_request_duplicate (str : HTTPMessage → List Char) (archive_ : Store)
    (incoming_req : HTTPMessage) (hlen : incoming_req.first_line.length < 2 ^ 32) :
    (∀ x ∈ archive_, x.1.first_line = incoming_req.first_line →
        get_header_value x.1 Host = get_header_value incoming_req Host →
        add_request str archive_ incoming_req = .ok (archive_, -1)) ∧
      (∀ next index, add_request str archive_ incoming_req = .ok (next, index) →
        index ≠ -1 → add_request str next incoming_req = .ok (next, -1)) := by
  refine ⟨?_, ?_⟩
  · intro x hx h1 h2
    obtain ⟨r, hr⟩ := find_request_of_identical str archive_ incoming_req hlen x hx ⟨h1, h2⟩
    exact add_request_of_match str archive_ incoming_req r hr
  · intro next index hadd hindex
    rcases add_request_cases str archive_ next incoming_req index hadd with
      ⟨_, h, _⟩ | ⟨hnext, _, _⟩
    · exact absurd h hindex
    · obtain ⟨r, hr⟩ := find_request_of_identical str next incoming_req hlen
        (incoming_req, blank) (by rw [hnext]; simp) ⟨rfl, rfl⟩
      exact add_request_of_match str next incoming_req r hr

/-- C8, on the archive of the spec, whose second entry holds the request. -/
theorem add_request_duplicate_witness :
    add_request sample_str store_a req_a2 = .ok (store_a, -1) :=
  (add_request_duplicate sample_str store_a req_a2 (by decide)).1
    (request "GET /a?x=2 HTTP/1.1" "example.com", not_found_404) (by decide) (by decide)
    (by decide)

/-! ## The invariant of the archive -/

/-- In a reachable archive the requests differ pairwise in first line or in
`Host` value. -/
theorem reachable_pairwise (str : HTTPMessage → List Char) (archive_ : Store)
    (h : Reachable str archive_) :
    List.Pairwise
      (fun a b : HTTPMessage =>
        ¬ (a.first_line = b.first_line ∧ get_header_value a Host = get_header_value b Host))
      (archive_.map Prod.fst) := by
  induction h with
  | empty => exact List.Pairwise.nil
  | add_request archive_ next incoming_req index _ hadd ih =>
    rcases add_request_cases str archive_ next incoming_req index hadd with
      ⟨hnext, _, _⟩ | ⟨hnext, _, r, hfind⟩
    · rw [hnext]; exact ih
    · rw [hnext, List.map_append, List.pairwise_append]
      refine ⟨ih, List.pairwise_singleton _ _, ?_⟩
      intro a ha b hb
      obtain ⟨hne, _⟩ := find_request_loop_false str incoming_req archive_ (0, []) r hfind
      obtain ⟨x, hx, hxa⟩ := List.mem_map.mp ha
      simp only [List.map_cons, List.map_nil, List.mem_singleton] at hb
      rw [hb, ← hxa]
      exact hne x hx
  | add_response archive_ next response index _ hadd ih =>
    obtain ⟨entry, hget, _, hnext⟩ := add_response_cases archive_ next response index hadd
    rw [hnext, map_fst_set archive_ _ entry response hget]
    exact ih

/-- C9. In every archive built from the empty one by calls of `add_request`
and of `add_response` that return, no two entries at different positions have
both the same request first line and the same `Host` value; and an
`add_request` of a request for which `find_request` reports a match leaves the
archive as it is. -/
theorem reachable_no_duplicate (str : HTTPMessage → List Char) (archive_ : Store)
    (h : Reachable str archive_) :
    (∀ (j k : Nat) (a b : HTTPMessage × HTTPMessage), j ≠ k →
        archive_[j]? = some a → archive_[k]? = some b →
        ¬ (a.1.first_line = b.1.first_line ∧
          get_header_value a.1 Host = get_header_value b.1 Host)) ∧
      (∀ (incoming_req : HTTPMessage) (next : Store) (index : Int) (r : List Char),
        find_request str archive_ incoming_req = .ok (true, r) →
        add_request str archive_ incoming_req = .ok (next, index) → next = archive_) := by
  refine ⟨?_, ?_⟩
  · have hp := List.pairwise_iff_getElem.mp (reachable_pairwise str archive_ h)
    have ordered : ∀ (j k : Nat) (a b : HTTPMessage × HTTPMessage), j < k →
        archive_[j]? = some a → archive_[k]? = some b →
        ¬ (a.1.first_line = b.1.first_line ∧
          get_header_value a.1 Host = get_header_value b.1 Host) := by
      intro j k a b hjk ha hb
      obtain ⟨hj, haj⟩ := List.getElem?_eq_some.mp ha
      obtain ⟨hk, hbk⟩ := List.getElem?_eq_some.mp hb
      have := hp j k (by simpa using hj) (by simpa using hk) hjk
      simp only [List.getElem_map, haj, hbk] at this
      exact this
    intro j k a b hjk ha hb
    rcases Nat.lt_or_gt_of_ne hjk with hlt | hgt
    · exact ordered j k a b hlt ha hb
    · intro hab
      exact ordered k j b a hgt hb ha ⟨hab.1.symm, hab.2.symm⟩
  · intro incoming_req next index r hfind hadd
    rw [add_request_of_match str archive_ incoming_req r hfind] at hadd
    simp only [Outcome.ok.injEq, Prod.mk.injEq] at hadd
    exact hadd.1.symm

/-- The archive `store_img_other` is built by `add_request`, `add_response`
and `add_request`. -/
theorem reachable_store_img_other : Reachable sample_str store_img_other :=
  Reachable.add_request store_img store_img_other req_other 1
    (Reachable.add_response [(request "GET /img?v=1 HTTP/1.1" "x.com", blank)] store_img
      ok_200 0
      (Reachable.add_request [] [(request "GET /img?v=1 HTTP/1.1" "x.com", blank)]
        (request "GET /img?v=1 HTTP/1.1" "x.com") 0 Reachable.empty (by decide))
      (by decide))
    (by decide)

/-- C9, on an archive built by `add_request`, `add_response` and
`add_request`: its two entries differ in first line. -/
theorem reachable_no_duplicate_witness :
    ¬ ((request "GET /img?v=1 HTTP/1.1" "x.com").first_line = req_other.first_line ∧
      get_header_value (request "GET /img?v=1 HTTP/1.1" "x.com") Host =
        get_header_value req_other Host) :=
  (reachable_no_duplicate sample_str store_img_other reachable_store_img_other).1 0 1
    (request "GET /img?v=1 HTTP/1.1" "x.com", ok_200) (req_other, blank)
    (by decide) (by decide) (by decide)

/-- C10. For an index in the range of `int` and an archive of fewer than
`2 ^ 63` entries (a vector holds no more), `add_response` faults exactly when
the index is negative, or is the size of the archive or more, or the entry at
the index has a response with a non-empty first line; when it faults the
archive is as it was; and after an `add_response` of a response with a
non-empty first line, another `add_response` at the same index fails its
assertion and leaves the archive as it is. -/
theorem add_response_faults_iff (archive_ : Store) (response : HTTPMessage) (index : Int)
    (hint : -(2 ^ 31) ≤ index ∧ index < 2 ^ 31) (hvec : archive_.length < 2 ^ 63) :
    ((add_response archive_ response index).2 ≠ .ok () ↔
        (index < 0 ∨ (archive_.length : Int) ≤ index ∨
          ∃ entry, archive_[index.toNat]? = some entry ∧ entry.2.first_line ≠ [])) ∧
      ((add_response archive_ response index).2 ≠ .ok () →
        (add_response archive_ response index).1 = archive_) ∧
      (∀ again : HTTPMessage, (add_response archive_ response index).2 = .ok () →
        response.first_line ≠ [] →
        add_response (add_response archive_ response index).1 again index =
          ((add_response archive_ response index).1, .fault .assertion)) := by
  refine ⟨?_, ?_, ?_⟩
  · by_cases hneg : index < 0
    · have hbig := to_size_t_of_neg hneg hint.1
      have hnone : archive_[to_size_t index]? = none :=
        List.getElem?_eq_none (by omega)
      rw [add_response_of_none archive_ response index hnone]
      simp [hneg]
    · have hsz : to_size_t index = index.toNat :=
        to_size_t_of_nonneg (by omega) (by omega)
      cases hget : archive_[index.toNat]? with
      | none =>
        rw [add_response_of_none archive_ response index (by rw [hsz]; exact hget)]
        have hle := List.getElem?_eq_none_iff.mp hget
        have : (archive_.length : Int) ≤ index := by omega
        simp [this]
      | some entry =>
        have hlt : index.toNat < archive_.length := by
          by_contra hcon
          rw [List.getElem?_eq_none (by omega)] at hget
          simp at hget
        by_cases hfl : entry.2.first_line = []
        · rw [add_response_of_unset archive_ response index entry (by rw [hsz]; exact hget)
            hfl]
          have : ¬ (archive_.length : Int) ≤ index := by omega
          simp [hneg, this, hfl]
        · rw [add_response_of_set archive_ response index entry (by rw [hsz]; exact hget)
            hfl]
          simp [hfl]
  · intro hfault
    cases hget : archive_[to_size_t index]? with
    | none => rw [add_response_of_none archive_ response index hget]
    | some entry =>
      by_cases hfl : entry.2.first_line = []
      · rw [add_response_of_unset archive_ response index entry hget hfl] at hfault
        exact absurd rfl hfault
      · rw [add_response_of_set archive_ response index entry hget hfl]
  · intro again hok hresp
    obtain ⟨entry, hget, _, hnext⟩ := add_response_cases archive_
      (add_response archive_ response index).1 response index
      (by rw [← hok])
    have hlt : to_size_t index < archive_.length := by
      by_contra hcon
      rw [List.getElem?_eq_none (by omega)] at hget
      simp at hget
    have hget2 : (add_response archive_ response index).1[to_size_t index]? =
        some (entry.1, response) := by
      rw [hnext]
      exact List.getElem?_set_self hlt
    exact add_response_of_set _ again index (entry.1, response) hget2 hresp

/-- C10, on the archive `store_img`, whose entry 0 has a response: another
`add_response` at 0 faults and leaves the archive as it is. -/
theorem add_response_faults_iff_witness :
    (add_response store_img not_found_404 0).2 ≠ .ok () ∧
      (add_response store_img not_found_404 0).1 = store_img :=
  ⟨(add_response_faults_iff store_img not_found_404 0 (by decide) (by decide)).1.mpr
      (Or.inr (Or.inr ⟨(request "GET /img?v=1 HTTP/1.1" "x.com", ok_200), by decide,
        by decide⟩)),
    (add_response_faults_iff store_img not_found_404 0 (by decide) (by decide)).2.1
      (by decide)⟩

/-! ## What `add_response` changes -/

/-- C11. For an index of an entry whose response has an empty first line,
`add_response` returns, the archive keeps its size, the entry at the index
keeps its request and gets the response, and every other entry is as it was. -/
theorem add_response_frame (archive_ : Store) (response : HTTPMessage) (index : Int)
    (entry : HTTPMessage × HTTPMessage)
    (h0 : 0 ≤ index) (h1 : index < 2 ^ 31)
    (hget : archive_[index.toNat]? = some entry) (hunset : entry.2.first_line = []) :
    (add_response archive_ response index).2 = .ok () ∧
      (add_response archive_ response index).1.length = archive_.length ∧
      (add_response archive_ response index).1[index.toNat]? = some (entry.1, response) ∧
      ∀ j, j ≠ index.toNat → (add_response archive_ response index).1[j]? = archive_[j]? := by
  have hsz : to_size_t index = index.toNat := to_size_t_of_nonneg h0 (by omega)
  have hlt : index.toNat < archive_.length := by
    by_contra hcon
    rw [List.getElem?_eq_none (by omega)] at hget
    simp at hget
  rw [add_response_of_unset archive_ response index entry (by rw [hsz]; exact hget) hunset, hsz]
  refine ⟨rfl, ?_, ?_, ?_⟩
  · simp
  · exact List.getElem?_set_self hlt
  · intro j hj
    exact List.getElem?_set_ne (fun h => hj h.symm)

/-- C11, on the archive `store_img_other`, whose entry 1 has no response yet. -/
theorem add_response_frame_witness :
    (add_response store_img_other not_found_404 1).2 = .ok () ∧
      (add_response store_img_other not_found_404 1).1.length = store_img_other.length ∧
      (add_response store_img_other not_found_404 1).1[(1 : Int).toNat]? =
        some (req_other, not_found_404) ∧
      ∀ j, j ≠ (1 : Int).toNat →
        (add_response store_img_other not_found_404 1).1[j]? = store_img_other[j]? :=
  add_response_frame store_img_other not_found_404 1 (req_other, blank) (by decide) (by decide)
    (by decide) (by decide)

/-! ## The text of `print` -/

theorem print_loop_ok (archive_ : Store) (hsize : archive_.length < 2 ^ 32) :
    ∀ (fuel i : Nat) (to_write : List Char), archive_.length - i < fuel →
      i ≤ archive_.length →
      print_loop archive_ fuel i to_write = .ok (to_write ++ dump_text (archive_.drop i)) := by
  intro fuel
  induction fuel with
  | zero => intro i _ h; omega
  | succ fuel ih =>
    intro i to_write hfuel hi
    by_cases hlt : i < archive_.length
    · have hget : archive_[i]? = some archive_[i] := List.getElem?_eq_getElem hlt
      have hdrop : archive_.drop i = archive_[i] :: archive_.drop (i + 1) :=
        List.drop_eq_getElem_cons hlt
      simp only [print_loop, hlt, if_true, hget]
      rw [to_unsigned_of_lt (by omega), ih (i + 1) _ (by omega) (by omega), hdrop]
      simp only [dump_text, List.append_assoc]
    · have hdrop : archive_.drop i = [] := List.drop_eq_nil_of_le (by omega)
      simp only [print_loop, hlt, if_false, hdrop, dump_text, List.append_nil]

theorem count_newline_dump_text (archive_ : Store) :
    (dump_text archive_).count '\n' = 3 * archive_.length + inner_newlines archive_ := by
  induction archive_ with
  | nil => rfl
  | cons x rest ih =>
    simp only [dump_text, inner_newlines, List.count_append, ih, List.length_cons]
    have h1 : List.count '\n' ['\n'] = 1 := by decide
    have h2 : List.count '\n' ['\n', '\n'] = 2 := by decide
    rw [h1, h2]
    omega

/-- C13. For an archive of fewer than `2 ^ 32` entries (the counter of the
loop is an `unsigned int`), the text that `print` builds is the concatenation,
in storage order, of request first line, line break, response first line and
two line breaks, with nothing before, between or after; it is empty for the
empty archive, and it holds three line breaks per entry besides those inside
the first lines. -/
theorem print_text_eq_dump_text (archive_ : Store) (hsize : archive_.length < 2 ^ 32) :
    print_text archive_ = .ok (dump_text archive_) ∧
      print_text [] = .ok [] ∧
      (dump_text archive_).count '\n' = 3 * archive_.length + inner_newlines archive_ := by
  refine ⟨?_, rfl, count_newline_dump_text archive_⟩
  unfold print_text
  rw [print_loop_ok archive_ hsize _ 0 [] (by omega) (Nat.zero_le _)]
  simp

/-- C13, on the archive of two entries `store_a`. -/
theorem print_text_eq_dump_text_witness :
    print_text store_a = .ok
      ("GET /a?x=1 HTTP/1.1\nHTTP/1.1 200 OK\n\n".toList ++
        "GET /a?x=2 HTTP/1.1\nHTTP/1.1 404 Not Found\n\n".toList) :=
  (print_text_eq_dump_text store_a (by decide)).1.trans (by decide)

/-! ## The first `?` of a string -/

theorem find_query_cons (c : Char) (s : List Char) :
    find_query (c :: s) = if c = '?' then some 0 else (find_query s).map (· + 1) := rfl

theorem find_query_eq_none_iff (s : List Char) : find_query s = none ↔ '?' ∉ s := by
  induction s with
  | nil => simp [find_query]
  | cons c s ih =>
    rw [find_query_cons]
    by_cases hc : c = '?'
    · simp [hc]
    · have hc2 : ¬ '?' = c := fun h => hc h.symm
      simp [hc, hc2, ih]

theorem find_query_some (s : List Char) :
    ∀ q, find_query s = some q →
      q < s.length ∧ s[q]? = some '?' ∧ ∀ j, j < q → s[j]? ≠ some '?' := by
  induction s with
  | nil => intro q h; simp [find_query] at h
  | cons c s ih =>
    intro q h
    rw [find_query_cons] at h
    by_cases hc : c = '?'
    · rw [if_pos hc] at h
      cases h
      exact ⟨by simp, by simp [hc], fun j hj => absurd hj (Nat.not_lt_zero j)⟩
    · rw [if_neg hc] at h
      cases hs : find_query s with
      | none => rw [hs] at h; simp at h
      | some p =>
        rw [hs] at h
        simp only [Option.map_some', Option.some.injEq] at h
        subst h
        obtain ⟨h1, h2, h3⟩ := ih p hs
        refine ⟨by simp; omega, by simpa using h2, ?_⟩
        intro j hj
        cases j with
        | zero => simpa using hc
        | succ j => simpa using h3 j (by omega)

theorem find_query_of_first (s : List Char) :
    ∀ q, s[q]? = some '?' → (∀ j, j < q → s[j]? ≠ some '?') → find_query s = some q := by
  induction s with
  | nil => intro q h; simp at h
  | cons c s ih =>
    intro q hq hfirst
    rw [find_query_cons]
    cases q with
    | zero =>
      simp only [List.getElem?_cons_zero, Option.some.injEq] at hq
      rw [if_pos hq]
    | succ q =>
      have hc : ¬ c = '?' := by
        have := hfirst 0 (Nat.succ_pos q)
        simpa using this
      rw [if_neg hc]
      simp only [List.getElem?_cons_succ] at hq
      have := ih q hq (fun j hj => by simpa using hfirst (j + 1) (by omega))
      rw [this]
      rfl

theorem remove_query_of_none (s : List Char) (h : find_query s = none) : remove_query s = s := by
  unfold remove_query
  rw [h]

theorem remove_query_of_some (s : List Char) (q : Nat) (h : find_query s = some q) :
    remove_query s = s.take q := by
  unfold remove_query
  rw [h]

/-- A string is its part up to the first `?` followed by a rest; the rest
starts with `?` when the string holds one. -/
theorem remove_query_append (s : List Char) :
    ∃ rest, s = remove_query s ++ rest ∧ ('?' ∈ s → ∃ tail, rest = '?' :: tail) := by
  induction s with
  | nil => exact ⟨[], rfl, fun h => absurd h (List.not_mem_nil _)⟩
  | cons c s ih =>
    rw [remove_query_cons]
    by_cases hc : c = '?'
    · rw [if_pos hc]
      exact ⟨c :: s, rfl, fun _ => ⟨s, by rw [hc]⟩⟩
    · rw [if_neg hc]
      obtain ⟨rest, h1, h2⟩ := ih
      refine ⟨rest, by rw [List.cons_append, ← h1], ?_⟩
      intro hmem
      rcases List.mem_cons.mp hmem with h | h
      · exact absurd h.symm hc
      · exact h2 h

theorem not_mem_remove_query (s : List Char) : '?' ∉ remove_query s := by
  induction s with
  | nil => simp [remove_query_nil]
  | cons c s ih =>
    rw [remove_query_cons]
    by_cases hc : c = '?'
    · simp [hc]
    · rw [if_neg hc]
      intro hmem
      rcases List.mem_cons.mp hmem with h | h
      · exact hc h.symm
      · exact ih h

theorem remove_query_longest (s : List Char) :
    ∀ p rest : List Char, s = p ++ rest → '?' ∉ p → p.length ≤ (remove_query s).length := by
  induction s with
  | nil =>
    intro p rest h _
    have : p = [] := (List.append_eq_nil.mp h.symm).1
    simp [this]
  | cons c s ih =>
    intro p rest h hp
    cases p with
    | nil => simp
    | cons d p =>
      rw [List.cons_append] at h
      obtain ⟨hcd, hs⟩ := List.cons.inj h
      have hc : ¬ c = '?' := by
        intro hc
        apply hp
        rw [← hcd, hc]
        exact List.mem_cons_self _ _
      rw [remove_query_cons, if_neg hc]
      have := ih p rest hs (fun hmem => hp (List.mem_cons_of_mem _ hmem))
      simp only [List.length_cons]
      omega

/-- The characters of a string before its first `?` are those of its
query-free part. -/
theorem remove_query_get (s : List Char) (j : Nat) (hj : j < (remove_query s).length) :
    (remove_query s)[j]? = s[j]? := by
  obtain ⟨rest, h, _⟩ := remove_query_append s
  conv_rhs => rw [h]
  exact (List.getElem?_append_left hj).symm

theorem length_remove_query_le (s : List Char) : (remove_query s).length ≤ s.length := by
  obtain ⟨rest, h, _⟩ := remove_query_append s
  conv_rhs => rw [h]
  simp

/-- C19. `remove_query` returns a string without `?` as it is and otherwise
the part before the first `?`; its result holds no `?`, is a start of the
string, is at least as long as every start of the string that holds no `?`,
and is left as it is by `remove_query`. -/
theorem remove_query_spec (x : List Char) :
    ('?' ∉ x → remove_query x = x) ∧
      ('?' ∈ x → ∃ tail, x = remove_query x ++ '?' :: tail) ∧
      '?' ∉ remove_query x ∧
      (∃ rest, x = remove_query x ++ rest) ∧
      (∀ p rest : List Char, x = p ++ rest → '?' ∉ p →
        p.length ≤ (remove_query x).length) ∧
      remove_query (remove_query x) = remove_query x := by
  have hnone : ∀ y : List Char, '?' ∉ y → remove_query y = y :=
    fun y hy => remove_query_of_none y ((find_query_eq_none_iff y).mpr hy)
  obtain ⟨rest, h1, h2⟩ := remove_query_append x
  refine ⟨hnone x, ?_, not_mem_remove_query x, ⟨rest, h1⟩, remove_query_longest x,
    hnone _ (not_mem_remove_query x)⟩
  intro hmem
  obtain ⟨tail, ht⟩ := h2 hmem
  exact ⟨tail, by rw [← ht]; exact h1⟩

/-! ## The length of the shared start of two strings -/

theorem shared_length_le (first second : List Char) :
    shared_length first second ≤ min first.length second.length := by
  induction first generalizing second with
  | nil => simp [shared_length]
  | cons a s ih =>
    cases second with
    | nil => simp [shared_length]
    | cons b t =>
      by_cases hab : a = b
      · have := ih t
        simp only [shared_length, hab, if_true, List.length_cons]
        omega
      · simp [shared_length, hab]

/-- The length of the shared start is the one position up to which the
strings agree and at which they differ or the shorter one ends. -/
theorem shared_length_unique (first second : List Char) :
    ∀ r, r ≤ min first.length second.length →
      (∀ j, j < r → first[j]? = second[j]?) →
      (r < min first.length second.length → first[r]? ≠ second[r]?) →
      shared_length first second = r := by
  induction first generalizing second with
  | nil =>
    intro r hr _ _
    simp only [List.length_nil, Nat.zero_min, Nat.le_zero_eq] at hr
    simp [shared_length, hr]
  | cons a s ih =>
    intro r hr hagree hdiff
    cases second with
    | nil =>
      simp only [List.length_nil, Nat.min_zero, Nat.le_zero_eq] at hr
      simp [shared_length, hr]
    | cons b t =>
      simp only [List.length_cons] at hr hdiff
      cases r with
      | zero =>
        have hab : ¬ a = b := by
          intro hab
          exact hdiff (by omega) (by simp [hab])
        simp [shared_length, hab]
      | succ r =>
        have hab : a = b := by
          have := hagree 0 (Nat.succ_pos r)
          simpa using this
        have := ih t r (by omega)
          (fun j hj => by simpa using hagree (j + 1) (by omega))
          (fun h => by simpa using hdiff (by omega))
        simp only [shared_length, hab, if_true, this]

theorem shared_length_agree (first second : List Char) :
    ∀ j, j < shared_length first second → first[j]? = second[j]? := by
  induction first generalizing second with
  | nil => intro j hj; simp [shared_length] at hj
  | cons a s ih =>
    intro j hj
    cases second with
    | nil => simp [shared_length] at hj
    | cons b t =>
      by_cases hab : a = b
      · simp only [shared_length, hab, if_true] at hj
        cases j with
        | zero => simp [hab]
        | succ j => simpa using ih t j (by omega)
      · simp [shared_length, hab] at hj

/-! ## The value of `match_size` -/

theorem match_size_loop_in_range (first second : List Char) (max_match : Nat)
    (h1 : max_match ≤ first.length) (h2 : max_match ≤ second.length) :
    ∀ (fuel i : Nat), match_size_loop first second max_match fuel i ≠ .fault .out_of_range := by
  intro fuel
  induction fuel with
  | zero => intro i h; simp [match_size_loop] at h
  | succ fuel ih =>
    intro i
    by_cases hi : i < max_match
    · obtain ⟨a, ha⟩ : ∃ a, first[i]? = some a :=
        ⟨first[i], List.getElem?_eq_getElem (by omega)⟩
      obtain ⟨b, hb⟩ : ∃ b, second[i]? = some b :=
        ⟨second[i], List.getElem?_eq_getElem (by omega)⟩
      by_cases hab : a = b
      · simp only [match_size_loop, hi, if_true, ha, hb, hab, ne_eq, not_true_eq_false,
          if_false]
        exact ih _
      · simp [match_size_loop, hi, ha, hb, hab]
    · simp [match_size_loop, hi]

/-- The loop of `find_request` returns when the incoming first line has fewer
than `2 ^ 32` characters. -/
theorem find_request_loop_returns (str : HTTPMessage → List Char) (request : HTTPMessage)
    (hlen : request.first_line.length < 2 ^ 32) :
    ∀ (archive_ : Store) (pm : Int × List Char),
      ∃ res, find_request_loop str request archive_ pm = .ok res := by
  intro archive_
  induction archive_ with
  | nil =>
    intro pm
    rw [find_request_loop_nil]
    by_cases h : pm.1 ≠ 0
    · exact ⟨_, if_pos h⟩
    · exact ⟨_, if_neg h⟩
  | cons x rest ih =>
    intro pm
    rcases find_request_loop_cons str request hlen x rest pm with
      ⟨_, heq⟩ | ⟨_, heq⟩ | ⟨_, _, v, _, ⟨_, heq⟩ | ⟨_, heq⟩⟩
    · exact ⟨_, heq⟩
    · rw [heq]; exact ih pm
    · rw [heq]; exact ih _
    · rw [heq]; exact ih pm

/-- C20. Every character access of `match_size` is in range, whatever the
strings; when the shorter string has fewer than `2 ^ 31` characters (as when
both have), `match_size` returns a score from 0 to the length of the shorter
string; and `find_request` returns for every archive when the incoming first
line has fewer than `2 ^ 31` characters. -/
theorem match_size_in_bounds (first second : List Char)
    (hlen : min first.length second.length < 2 ^ 31) :
    match_size first second ≠ .fault .out_of_range ∧
      (∃ r : Nat, match_size first second = .ok (r : Int) ∧
        r ≤ min first.length second.length) ∧
      (∀ (str : HTTPMessage → List Char) (archive_ : Store) (incoming_req : HTTPMessage),
        incoming_req.first_line.length < 2 ^ 31 →
        ∃ res, find_request str archive_ incoming_req = .ok res) := by
  refine ⟨?_, ?_, ?_⟩
  · exact match_size_loop_in_range first second _ (Nat.min_le_left _ _) (Nat.min_le_right _ _)
      _ _
  · obtain ⟨r, hr, hle, _⟩ := match_size_ok first second (by omega)
    refine ⟨r, ?_, hle⟩
    rw [hr, to_int_of_lt (by omega)]
  · intro str archive_ incoming_req h
    exact find_request_loop_returns str incoming_req (by omega) archive_ (0, [])

/-- C20, on the two first lines of the spec that differ after the `?`. -/
theorem match_size_in_bounds_witness :
    match_size "GET /img?v=1 HTTP/1.1".toList "GET /img?v=2 HTTP/1.1".toList ≠
        .fault .out_of_range ∧
      (∃ r : Nat,
        match_size "GET /img?v=1 HTTP/1.1".toList "GET /img?v=2 HTTP/1.1".toList =
          .ok (r : Int) ∧
        r ≤ min "GET /img?v=1 HTTP/1.1".toList.length "GET /img?v=2 HTTP/1.1".toList.length) :=
  ⟨(match_size_in_bounds _ _ (by decide)).1, (match_size_in_bounds _ _ (by decide)).2.1⟩

/-- The loop of `match_size` reads the second string from its starting
position on only. -/
theorem match_size_loop_congr (first second other : List Char) (max_match start : Nat)
    (h3 : max_match < 2 ^ 32)
    (hsame : ∀ j, start ≤ j → other[j]? = second[j]?) :
    ∀ (fuel i : Nat), start ≤ i →
      match_size_loop first other max_match fuel i =
        match_size_loop first second max_match fuel i := by
  intro fuel
  induction fuel with
  | zero => intro i _; rfl
  | succ fuel ih =>
    intro i hi
    by_cases hlt : i < max_match
    · have hstep := ih (i + 1) (by omega)
      simp only [match_size_loop, hlt, if_true, hsame i hi]
      rw [to_unsigned_of_lt (by omega), hstep]
    · simp only [match_size_loop, hlt, if_false]

/-- C14 as stated fails: the stored line holds no `?`, the two lines differ
first at position 5, and the score is 15, the length of the shorter line. -/
theorem match_size_no_query_counterexample :
    '?' ∉ "GET /a HTTP/1.1".toList ∧
      shared_length "GET /a HTTP/1.1".toList "GET /b HTTP/1.1".toList = 5 ∧
      match_size "GET /a HTTP/1.1".toList "GET /b HTTP/1.1".toList = .ok 15 := by
  decide

/-- C14, amended. When the first string holds no `?` and the shorter string
has fewer than `2 ^ 31` characters, `match_size` compares no characters and
returns the length of the shorter string; this is the length of the shared
start of the two strings exactly when they agree on all of the shorter one. -/
theorem match_size_no_query (first second : List Char)
    (hq : '?' ∉ first) (hlen : min first.length second.length < 2 ^ 31) :
    match_size first second = .ok ((min first.length second.length : Nat) : Int) ∧
      (match_size first second = .ok ((shared_length first second : Nat) : Int) ↔
        ∀ j, j < min first.length second.length → first[j]? = second[j]?) := by
  have hnone : find_query first = none := (find_query_eq_none_iff first).mpr hq
  have hstart : to_unsigned (find_result first) = 2 ^ 32 - 1 := by
    unfold find_result
    rw [hnone]
    decide
  obtain ⟨r, hr, hle, hmin, _, _⟩ := match_size_ok first second (by omega)
  rw [hstart] at hmin
  have hrmin : r = min first.length second.length := by omega
  have hval : match_size first second =
      .ok ((min first.length second.length : Nat) : Int) := by
    rw [hr, to_int_of_lt (by omega), hrmin]
  refine ⟨hval, ?_⟩
  rw [hval]
  constructor
  · intro h j hj
    simp only [Outcome.ok.injEq, Nat.cast_inj] at h
    exact shared_length_agree first second j (by omega)
  · intro h
    rw [shared_length_unique first second _ (le_refl _) h (fun hlt => absurd hlt (lt_irrefl _))]

/-- C14 amended, on two lines without `?` that differ at position 5. -/
theorem match_size_no_query_witness :
    match_size "GET /a HTTP/1.1".toList "GET /b HTTP/1.1".toList =
      .ok ((min "GET /a HTTP/1.1".toList.length "GET /b HTTP/1.1".toList.length : Nat) : Int) :=
  (match_size_no_query _ _ (by decide) (by decide)).1

/-- C15. When the first `?` of the first string is at position `q < 2 ^ 32`
and the shorter string has fewer than `2 ^ 31` characters, `match_size`
returns the smallest position from `q` on, below the length of the shorter
string, at which the strings differ, and that length when there is none; the
result is the same for every second string of the same length with the same
characters from `q` on. -/
theorem match_size_from_query (first second : List Char) (q : Nat)
    (hq : first[q]? = some '?') (hfirst : ∀ j, j < q → first[j]? ≠ some '?')
    (hq32 : q < 2 ^ 32) (hlen : min first.length second.length < 2 ^ 31) :
    ∃ r : Nat, match_size first second = .ok (r : Int) ∧
      r ≤ min first.length second.length ∧
      (r < min first.length second.length → q ≤ r ∧ first[r]? ≠ second[r]?) ∧
      (∀ j, q ≤ j → j < r → first[j]? = second[j]?) ∧
      (∀ other : List Char, other.length = second.length →
        (∀ j, q ≤ j → other[j]? = second[j]?) →
        match_size first other = match_size first second) := by
  have hsome : find_query first = some q := find_query_of_first first q hq hfirst
  have hstart : to_unsigned (find_result first) = q := by
    unfold find_result
    rw [hsome]
    exact to_unsigned_of_lt hq32
  obtain ⟨r, hr, hle, hmin, hdiff, hagree⟩ := match_size_ok first second (by omega)
  rw [hstart] at hmin hagree
  refine ⟨r, ?_, hle, ?_, hagree, ?_⟩
  · rw [hr, to_int_of_lt (by omega)]
  · intro hlt
    exact ⟨by omega, hdiff hlt⟩
  · intro other hother hsame
    unfold match_size
    rw [hstart, hother]
    exact match_size_loop_congr first second other _ q (by omega) hsame _ q (le_refl _)

/-- C15, on the two first lines of the spec: the first `?` is at position 8
and the score is 11, the position of the first difference. -/
theorem match_size_from_query_witness :
    ∃ r : Nat,
      match_size "GET /img?v=1 HTTP/1.1".toList "GET /img?v=2 HTTP/1.1".toList = .ok (r : Int) ∧
      r ≤ min "GET /img?v=1 HTTP/1.1".toList.length "GET /img?v=2 HTTP/1.1".toList.length ∧
      (r < min "GET /img?v=1 HTTP/1.1".toList.length "GET /img?v=2 HTTP/1.1".toList.length →
        8 ≤ r ∧
        "GET /img?v=1 HTTP/1.1".toList[r]? ≠ "GET /img?v=2 HTTP/1.1".toList[r]?) := by
  obtain ⟨r, h1, h2, h3, _⟩ := match_size_from_query "GET /img?v=1 HTTP/1.1".toList
    "GET /img?v=2 HTTP/1.1".toList 8 (by decide)
    (by
      intro j hj
      have : j = 0 ∨ j = 1 ∨ j = 2 ∨ j = 3 ∨ j = 4 ∨ j = 5 ∨ j = 6 ∨ j = 7 := by omega
      rcases this with h | h | h | h | h | h | h | h <;> subst h <;> decide)
    (by decide) (by decide)
  exact ⟨r, h1, h2, h3⟩

/-- C16. When two strings agree up to their first `?` and the shorter one has
fewer than `2 ^ 31` characters (as when both have), `match_size` returns the
length of their shared start. -/
theorem match_size_eq_shared_length (first second : List Char)
    (hquery : remove_query first = remove_query second)
    (hlen : min first.length second.length < 2 ^ 31) :
    match_size first second = .ok ((shared_length first second : Nat) : Int) := by
  obtain ⟨r, hr, hle, hmin, hdiff, hagree⟩ := match_size_ok first second (by omega)
  have hbefore : ∀ j, j < (remove_query first).length → first[j]? = second[j]? := by
    intro j hj
    rw [← remove_query_get first j hj, ← remove_query_get second j (by rw [← hquery]; exact hj),
      hquery]
  have hall : ∀ j, j < r → first[j]? = second[j]? := by
    intro j hj
    cases hfq : find_query first with
    | none =>
      apply hbefore
      rw [remove_query_of_none first hfq]
      omega
    | some q =>
      have hq := (find_query_some first q hfq).1
      have hrq : (remove_query first).length = q := by
        rw [remove_query_of_some first q hfq, List.length_take]
        omega
      have hq2 : q ≤ second.length := by
        rw [← hrq, hquery]
        exact length_remove_query_le second
      have hstart : to_unsigned (find_result first) = q := by
        unfold find_result
        rw [hfq]
        exact to_unsigned_of_lt (show q < 2 ^ 32 by omega)
      by_cases hjq : j < q
      · exact hbefore j (by omega)
      · exact hagree j (by omega) hj
  rw [hr, to_int_of_lt (by omega), shared_length_unique first second r hle hall hdiff]

/-- C16, on the two first lines of the spec that differ after the `?`. -/
theorem match_size_eq_shared_length_witness :
    match_size "GET /img?v=1 HTTP/1.1".toList "GET /img?v=2 HTTP/1.1".toList =
      .ok ((shared_length "GET /img?v=1 HTTP/1.1".toList "GET /img?v=2 HTTP/1.1".toList : Nat) :
        Int) :=
  match_size_eq_shared_length _ _ (by decide) (by decide)

/-! ## The result of `find_request` in terms that do not mention the order -/

/-- The three ways an iteration of the loop can go when `match_size` returns
for the entry. -/
theorem find_request_loop_cons_of_score (str : HTTPMessage → List Char)
    (request : HTTPMessage) (x : HTTPMessage × HTTPMessage) (rest : Store)
    (pm : Int × List Char)
    (hscore : ∃ v, match_size x.1.first_line request.first_line = .ok v) :
    (is_identical request x ∧
        find_request_loop str request (x :: rest) pm = .ok (true, str x.2)) ∨
      (¬ is_candidate request x ∧
        find_request_loop str request (x :: rest) pm = find_request_loop str request rest pm) ∨
      (is_candidate request x ∧ ¬ is_identical request x ∧
        ∃ v, match_size x.1.first_line request.first_line = .ok v ∧
          ((pm.1 < v ∧ find_request_loop str request (x :: rest) pm =
              find_request_loop str request rest (v, str x.2)) ∨
            (v ≤ pm.1 ∧ find_request_loop str request (x :: rest) pm =
              find_request_loop str request rest pm))) := by
  by_cases hi : is_identical request x
  · exact Or.inl ⟨hi, find_request_loop_exact str request x rest pm hi⟩
  · by_cases hc : is_candidate request x
    · obtain ⟨v, hv⟩ := hscore
      refine Or.inr (Or.inr ⟨hc, hi, v, hv, ?_⟩)
      have hs := find_request_loop_score str request x rest pm hc hi
      rw [hv] at hs
      by_cases hlt : pm.1 < v
      · left
        refine ⟨hlt, ?_⟩
        rw [hs]
        exact if_pos hlt
      · right
        refine ⟨by omega, ?_⟩
        rw [hs]
        exact if_neg hlt
    · exact Or.inr (Or.inl ⟨hc, find_request_loop_skip str request x rest pm hc⟩)

/-- An archive that holds an identical entry, and whose entries all get a
score, makes the loop return the response of an identical entry. -/
theorem find_request_loop_identical_of_scores (str : HTTPMessage → List Char)
    (request : HTTPMessage) :
    ∀ (archive_ : Store) (pm : Int × List Char),
      (∀ x ∈ archive_, ∃ v, match_size x.1.first_line request.first_line = .ok v) →
      (∃ x ∈ archive_, is_identical request x) →
      ∃ e ∈ archive_, is_identical request e ∧
        find_request_loop str request archive_ pm = .ok (true, str e.2) := by
  intro archive_
  induction archive_ with
  | nil => intro pm _ h; obtain ⟨x, hx, _⟩ := h; simp at hx
  | cons x rest ih =>
    intro pm hscores h
    have hscores2 : ∀ y ∈ rest, ∃ v, match_size y.1.first_line request.first_line = .ok v :=
      fun y hy => hscores y (List.mem_cons_of_mem _ hy)
    have hrest : ¬ is_identical request x → ∃ y ∈ rest, is_identical request y := by
      intro hx
      obtain ⟨y, hy, hyi⟩ := h
      rcases List.mem_cons.mp hy with hyx | hyr
      · rw [hyx] at hyi; exact absurd hyi hx
      · exact ⟨y, hyr, hyi⟩
    have lift : ∀ pm2, ¬ is_identical request x →
        find_request_loop str request (x :: rest) pm = find_request_loop str request rest pm2 →
        ∃ e ∈ x :: rest, is_identical request e ∧
          find_request_loop str request (x :: rest) pm = .ok (true, str e.2) := by
      intro pm2 hx heq
      obtain ⟨e, he, hei, hres⟩ := ih pm2 hscores2 (hrest hx)
      exact ⟨e, List.mem_cons_of_mem _ he, hei, by rw [heq]; exact hres⟩
    rcases find_request_loop_cons_of_score str request x rest pm
        (hscores x (List.mem_cons_self _ _)) with
      ⟨hi, heq⟩ | ⟨hnc, heq⟩ | ⟨_, hni, v, _, ⟨_, heq⟩ | ⟨_, heq⟩⟩
    · exact ⟨x, List.mem_cons_self _ _, hi, heq⟩
    · exact lift pm (fun hi => hnc (is_candidate_of_is_identical hi)) heq
    · exact lift _ hni heq
    · exact lift pm hni heq

/-- Without an identical entry, and when every entry gets a score, the loop
ends with the best score so far when no candidate beats it, and otherwise with
the score and the response of a candidate that no candidate beats. -/
theorem find_request_loop_fold_of_scores (str : HTTPMessage → List Char)
    (request : HTTPMessage) :
    ∀ (archive_ : Store) (pm : Int × List Char),
      (∀ x ∈ archive_, ∃ v, match_size x.1.first_line request.first_line = .ok v) →
      (∀ x ∈ archive_, ¬ is_identical request x) →
      ∃ pm2, find_request_loop str request archive_ pm = find_request_loop str request [] pm2 ∧
        ((pm2 = pm ∧ ∀ x ∈ archive_, is_candidate request x →
            ∀ v, match_size x.1.first_line request.first_line = .ok v → v ≤ pm.1) ∨
          (∃ e ∈ archive_, is_candidate request e ∧
            match_size e.1.first_line request.first_line = .ok pm2.1 ∧ pm2.2 = str e.2 ∧
            pm.1 < pm2.1 ∧
            ∀ x ∈ archive_, is_candidate request x →
              ∀ v, match_size x.1.first_line request.first_line = .ok v → v ≤ pm2.1)) := by
  intro archive_
  induction archive_ with
  | nil =>
    intro pm _ _
    exact ⟨pm, rfl, Or.inl ⟨rfl, fun x hx => absurd hx (List.not_mem_nil x)⟩⟩
  | cons x rest ih =>
    intro pm hscores hne
    have hscores2 : ∀ y ∈ rest, ∃ v, match_size y.1.first_line request.first_line = .ok v :=
      fun y hy => hscores y (List.mem_cons_of_mem _ hy)
    have hne2 : ∀ y ∈ rest, ¬ is_identical request y :=
      fun y hy => hne y (List.mem_cons_of_mem _ hy)
    have hx : ¬ is_identical request x := hne x (List.mem_cons_self _ _)
    have bound : ∀ (b : Int), (is_candidate request x →
          ∀ v, match_size x.1.first_line request.first_line = .ok v → v ≤ b) →
        (∀ y ∈ rest, is_candidate request y →
          ∀ v, match_size y.1.first_line request.first_line = .ok v → v ≤ b) →
        ∀ y ∈ x :: rest, is_candidate request y →
          ∀ v, match_size y.1.first_line request.first_line = .ok v → v ≤ b := by
      intro b h1 h2 y hy
      rcases List.mem_cons.mp hy with hyx | hyr
      · rw [hyx]; exact h1
      · exact h2 y hyr
    rcases find_request_loop_cons_of_score str request x rest pm
        (hscores x (List.mem_cons_self _ _)) with
      ⟨hi, _⟩ | ⟨hnc, heq⟩ | ⟨hc, _, v, hv, ⟨hlt, heq⟩ | ⟨hle, heq⟩⟩
    · exact absurd hi hx
    · obtain ⟨pm2, hres, hcase⟩ := ih pm hscores2 hne2
      refine ⟨pm2, by rw [heq]; exact hres, ?_⟩
      rcases hcase with ⟨hpm, hall⟩ | ⟨e, he, hec, hes, her, hlt, hall⟩
      · exact Or.inl ⟨hpm, bound pm.1 (fun hc => absurd hc hnc) hall⟩
      · exact Or.inr ⟨e, List.mem_cons_of_mem _ he, hec, hes, her, hlt,
          bound pm2.1 (fun hc => absurd hc hnc) hall⟩
    · obtain ⟨pm2, hres, hcase⟩ := ih (v, str x.2) hscores2 hne2
      refine ⟨pm2, by rw [heq]; exact hres, Or.inr ?_⟩
      rcases hcase with ⟨hpm, hall⟩ | ⟨e, he, hec, hes, her, hlt2, hall⟩
      · subst hpm
        refine ⟨x, List.mem_cons_self _ _, hc, hv, rfl, hlt, ?_⟩
        refine bound v ?_ hall
        intro _ w hw
        rw [hv] at hw
        cases hw
        exact le_refl _
      · refine ⟨e, List.mem_cons_of_mem _ he, hec, hes, her, ?_, ?_⟩
        · simp only at hlt2
          omega
        · refine bound pm2.1 ?_ hall
          intro _ w hw
          rw [hv] at hw
          cases hw
          simp only at hlt2
          omega
    · obtain ⟨pm2, hres, hcase⟩ := ih pm hscores2 hne2
      refine ⟨pm2, by rw [heq]; exact hres, ?_⟩
      rcases hcase with ⟨hpm, hall⟩ | ⟨e, he, hec, hes, her, hlt, hall⟩
      · refine Or.inl ⟨hpm, bound pm.1 ?_ hall⟩
        intro _ w hw
        rw [hv] at hw
        cases hw
        exact hle
      · refine Or.inr ⟨e, List.mem_cons_of_mem _ he, hec, hes, her, hlt, bound pm2.1 ?_ hall⟩
        intro _ w hw
        rw [hv] at hw
        cases hw
        omega

/-- The three cases of the result of `find_request` when every entry gets a
score: the response of an identical entry; no match, when there is no
identical entry and no candidate scores more than 0; the response of a
candidate of highest score, when there is no identical entry and that score is
more than 0. -/
theorem find_request_describe_of_scores (str : HTTPMessage → List Char) (archive_ : Store)
    (request : HTTPMessage)
    (hscores : ∀ x ∈ archive_, ∃ v, match_size x.1.first_line request.first_line = .ok v) :
    (∃ e ∈ archive_, is_identical request e ∧
        find_request str archive_ request = .ok (true, str e.2)) ∨
      ((∀ x ∈ archive_, ¬ is_identical request x) ∧
        (∀ x ∈ archive_, is_candidate request x →
          ∀ v, match_size x.1.first_line request.first_line = .ok v → v ≤ 0) ∧
        find_request str archive_ request = .ok (false, [])) ∨
      ((∀ x ∈ archive_, ¬ is_identical request x) ∧
        ∃ e ∈ archive_, is_candidate request e ∧
          ∃ best, match_size e.1.first_line request.first_line = .ok best ∧ 0 < best ∧
            (∀ x ∈ archive_, is_candidate request x →
              ∀ v, match_size x.1.first_line request.first_line = .ok v → v ≤ best) ∧
            find_request str archive_ request = .ok (true, str e.2)) := by
  by_cases hid : ∃ x ∈ archive_, is_identical request x
  · exact Or.inl
      (find_request_loop_identical_of_scores str request archive_ (0, []) hscores hid)
  · have hne : ∀ x ∈ archive_, ¬ is_identical request x := fun x hx hi => hid ⟨x, hx, hi⟩
    obtain ⟨pm2, hres, hcase⟩ :=
      find_request_loop_fold_of_scores str request archive_ (0, []) hscores hne
    rcases hcase with ⟨hpm, hall⟩ | ⟨e, he, hec, hes, her, hlt, hall⟩
    · refine Or.inr (Or.inl ⟨hne, hall, ?_⟩)
      unfold find_request
      rw [hres, hpm]
      rfl
    · refine Or.inr (Or.inr ⟨hne, e, he, hec, pm2.1, hes, hlt, hall, ?_⟩)
      unfold find_request
      rw [hres, find_request_loop_nil, ← her]
      simp only at hlt
      exact if_pos (by omega)

/-- The three cases of the result of `find_request`: the response of an
identical entry; no match, when there is no identical entry and no candidate
scores more than 0; the response of a candidate of highest score, when there
is no identical entry and that score is more than 0. -/
theorem find_request_describe (str : HTTPMessage → List Char) (archive_ : Store)
    (request : HTTPMessage) (hlen : request.first_line.length < 2 ^ 32) :
    (∃ e ∈ archive_, is_identical request e ∧
        find_request str archive_ request = .ok (true, str e.2)) ∨
      ((∀ x ∈ archive_, ¬ is_identical request x) ∧
        (∀ x ∈ archive_, is_candidate request x →
          ∀ v, match_size x.1.first_line request.first_line = .ok v → v ≤ 0) ∧
        find_request str archive_ request = .ok (false, [])) ∨
      ((∀ x ∈ archive_, ¬ is_identical request x) ∧
        ∃ e ∈ archive_, is_candidate request e ∧
          ∃ best, match_size e.1.first_line request.first_line = .ok best ∧ 0 < best ∧
            (∀ x ∈ archive_, is_candidate request x →
              ∀ v, match_size x.1.first_line request.first_line = .ok v → v ≤ best) ∧
            find_request str archive_ request = .ok (true, str e.2)) :=
  find_request_describe_of_scores str archive_ request
    (fun x _ => match_size_returns x.1.first_line request.first_line hlen)

theorem shared_length_eq_zero_iff (first second : List Char)
    (hquery : remove_query first = remove_query second) :
    shared_length first second = 0 ↔ first = [] ∨ second = [] := by
  cases first with
  | nil => simp [shared_length]
  | cons a s =>
    cases second with
    | nil => simp [shared_length]
    | cons b t =>
      have hab : a = b := head_eq_of_remove_query_eq a b s t hquery
      simp [shared_length, hab]

/-- A candidate that is identical or has a non-empty first line against a
non-empty incoming first line makes `find_request` report a match. -/
theorem find_request_of_good_candidate (str : HTTPMessage → List Char) (archive_ : Store)
    (request : HTTPMessage) (hlen : request.first_line.length < 2 ^ 31)
    (h : ∃ x ∈ archive_, is_candidate request x ∧
      (x.1.first_line = request.first_line ∨
        (x.1.first_line ≠ [] ∧ request.first_line ≠ []))) :
    ∃ r, find_request str archive_ request = .ok (true, r) := by
  obtain ⟨x, hx, hc, hgood⟩ := h
  have hsome : ∃ y ∈ archive_, is_identical request y ∨
      (is_candidate request y ∧
        ∃ v, match_size y.1.first_line request.first_line = .ok v ∧ 0 < v) := by
    refine ⟨x, hx, ?_⟩
    rcases hgood with h | ⟨h1, h2⟩
    · exact Or.inl ⟨h, hc.2⟩
    · exact Or.inr ⟨hc, match_size_pos _ _ hc.1 h1 h2 hlen⟩
  obtain ⟨r, hr, _⟩ := find_request_loop_match str request (by omega) archive_ (0, [])
    (le_refl _) (Or.inr hsome)
  exact ⟨r, hr⟩

/-- C17. When the incoming first line has fewer than `2 ^ 31` characters,
`find_request` reports a match exactly when some entry passes both filters and
is identical to the incoming request in first line or has, like the incoming
request, a non-empty first line; it reports no match exactly when there is no
such entry; and a candidate that is not identical scores 0 exactly when its
first line or the incoming one is empty. -/
theorem find_request_match_iff (str : HTTPMessage → List Char) (archive_ : Store)
    (incoming_req : HTTPMessage) (hlen : incoming_req.first_line.length < 2 ^ 31) :
    ((∃ r, find_request str archive_ incoming_req = .ok (true, r)) ↔
        ∃ x ∈ archive_, is_candidate incoming_req x ∧
          (x.1.first_line = incoming_req.first_line ∨
            (x.1.first_line ≠ [] ∧ incoming_req.first_line ≠ []))) ∧
      (find_request str archive_ incoming_req = .ok (false, []) ↔
        ¬ ∃ x ∈ archive_, is_candidate incoming_req x ∧
          (x.1.first_line = incoming_req.first_line ∨
            (x.1.first_line ≠ [] ∧ incoming_req.first_line ≠ []))) ∧
      (∀ x ∈ archive_, is_candidate incoming_req x →
        x.1.first_line ≠ incoming_req.first_line →
        ∃ v : Nat, match_size x.1.first_line incoming_req.first_line = .ok (v : Int) ∧
          (v = 0 ↔ (x.1.first_line = [] ∨ incoming_req.first_line = []))) := by
  have hmin : ∀ x : HTTPMessage × HTTPMessage,
      min x.1.first_line.length incoming_req.first_line.length < 2 ^ 31 := by
    intro x
    have := Nat.min_le_right x.1.first_line.length incoming_req.first_line.length
    omega
  have hcases := find_request_describe str archive_ incoming_req (by omega)
  have hback := find_request_of_good_candidate str archive_ incoming_req hlen
  have hforth : (∃ r, find_request str archive_ incoming_req = .ok (true, r)) →
      ∃ x ∈ archive_, is_candidate incoming_req x ∧
        (x.1.first_line = incoming_req.first_line ∨
          (x.1.first_line ≠ [] ∧ incoming_req.first_line ≠ [])) := by
    rintro ⟨r, hr⟩
    rcases hcases with ⟨e, he, hei, _⟩ | ⟨_, _, hres⟩ | ⟨_, e, he, hec, best, hbest, hpos, _, _⟩
    · exact ⟨e, he, is_candidate_of_is_identical hei, Or.inl hei.1⟩
    · rw [hres] at hr
      simp at hr
    · refine ⟨e, he, hec, Or.inr ?_⟩
      rw [match_size_eq_shared_length _ _ hec.1 (hmin e)] at hbest
      simp only [Outcome.ok.injEq] at hbest
      have hne : shared_length e.1.first_line incoming_req.first_line ≠ 0 := by
        intro h0
        rw [h0] at hbest
        simp only [Nat.cast_zero] at hbest
        omega
      have := (shared_length_eq_zero_iff _ _ hec.1).not.mp hne
      exact ⟨fun h => this (Or.inl h), fun h => this (Or.inr h)⟩
  refine ⟨⟨hforth, hback⟩, ⟨?_, ?_⟩, ?_⟩
  · intro hfalse hex
    obtain ⟨r, hr⟩ := hback hex
    rw [hfalse] at hr
    simp at hr
  · intro hno
    rcases hcases with ⟨e, _, _, hres⟩ | ⟨_, _, hres⟩ | ⟨_, e, _, _, _, _, _, _, hres⟩
    · exact absurd (hforth ⟨_, hres⟩) hno
    · exact hres
    · exact absurd (hforth ⟨_, hres⟩) hno
  · intro x _ hc _
    exact ⟨shared_length x.1.first_line incoming_req.first_line,
      match_size_eq_shared_length _ _ hc.1 (hmin x), shared_length_eq_zero_iff _ _ hc.1⟩

/-- C17, on the archive whose entry has an empty first line: the entry passes
both filters and `find_request` reports no match. -/
theorem find_request_match_iff_witness :
    find_request sample_str store_empty_line req_query_only = .ok (false, []) :=
  (find_request_match_iff sample_str store_empty_line req_query_only (by decide)).2.1.mpr
    (by decide)

/-! ## Candidates in a reachable archive -/

/-- In a reachable archive whose request first lines have fewer than `2 ^ 31`
characters, the requests with a non-empty first line differ pairwise in `Host`
value or in first line up to the first `?`. -/
theorem reachable_pairwise_query (str : HTTPMessage → List Char) (archive_ : Store)
    (h : Reachable str archive_) :
    (∀ m ∈ archive_.map Prod.fst, m.first_line.length < 2 ^ 31) →
    List.Pairwise
      (fun a b : HTTPMessage => a.first_line ≠ [] → b.first_line ≠ [] →
        ¬ (remove_query a.first_line = remove_query b.first_line ∧
          get_header_value a Host = get_header_value b Host))
      (archive_.map Prod.fst) := by
  induction h with
  | empty => intro _; exact List.Pairwise.nil
  | add_request archive_ next incoming_req index _ hadd ih =>
    intro hlen
    rcases add_request_cases str archive_ next incoming_req index hadd with
      ⟨hnext, _, _⟩ | ⟨hnext, _, r, hfind⟩
    · rw [hnext] at hlen ⊢
      exact ih hlen
    · rw [hnext, List.map_append] at hlen ⊢
      have hlen1 : ∀ m ∈ archive_.map Prod.fst, m.first_line.length < 2 ^ 31 :=
        fun m hm => hlen m (List.mem_append_left _ hm)
      have hlen2 : incoming_req.first_line.length < 2 ^ 31 :=
        hlen incoming_req (List.mem_append_right _ (by simp))
      rw [List.pairwise_append]
      refine ⟨ih hlen1, List.pairwise_singleton _ _, ?_⟩
      intro a ha b hb ha0 hb0 hab
      obtain ⟨x, hx, hxa⟩ := List.mem_map.mp ha
      simp only [List.map_cons, List.map_nil, List.mem_singleton] at hb
      rw [hb] at hb0 hab
      rw [← hxa] at ha0 hab
      obtain ⟨r2, hr2⟩ := find_request_of_good_candidate str archive_ incoming_req hlen2
        ⟨x, hx, hab, Or.inr ⟨ha0, hb0⟩⟩
      rw [hfind] at hr2
      simp at hr2
  | add_response archive_ next response index _ hadd ih =>
    intro hlen
    obtain ⟨entry, hget, _, hnext⟩ := add_response_cases archive_ next response index hadd
    rw [hnext, map_fst_set archive_ _ entry response hget] at hlen ⊢
    exact ih hlen

/-- C18. In every archive built from the empty one by calls of `add_request`
and of `add_response` that return, with request first lines of fewer than
`2 ^ 31` characters: two entries at different positions whose requests have
non-empty first lines differ in `Host` value or in first line up to the first
`?`; so for no incoming request do two such entries both pass the filters of
`find_request`; and the archive is not the one that holds `GET /a?x=1
HTTP/1.1` and `GET /a?x=2 HTTP/1.1` under the same `Host`. -/
theorem reachable_candidates_differ (str : HTTPMessage → List Char) (archive_ : Store)
    (h : Reachable str archive_)
    (hlen : ∀ x ∈ archive_, x.1.first_line.length < 2 ^ 31) :
    (∀ (j k : Nat) (a b : HTTPMessage × HTTPMessage), j ≠ k →
        archive_[j]? = some a → archive_[k]? = some b →
        a.1.first_line ≠ [] → b.1.first_line ≠ [] →
        ¬ (remove_query a.1.first_line = remove_query b.1.first_line ∧
          get_header_value a.1 Host = get_header_value b.1 Host)) ∧
      (∀ (incoming_req : HTTPMessage) (j k : Nat) (a b : HTTPMessage × HTTPMessage), j ≠ k →
        archive_[j]? = some a → archive_[k]? = some b →
        a.1.first_line ≠ [] → b.1.first_line ≠ [] →
        ¬ (is_candidate incoming_req a ∧ is_candidate incoming_req b)) ∧
      archive_ ≠ store_a := by
  have hlen2 : ∀ m ∈ archive_.map Prod.fst, m.first_line.length < 2 ^ 31 := by
    intro m hm
    obtain ⟨x, hx, hxm⟩ := List.mem_map.mp hm
    rw [← hxm]
    exact hlen x hx
  have hp := List.pairwise_iff_getElem.mp (reachable_pairwise_query str archive_ h hlen2)
  have ordered : ∀ (j k : Nat) (a b : HTTPMessage × HTTPMessage), j < k →
      archive_[j]? = some a → archive_[k]? = some b →
      a.1.first_line ≠ [] → b.1.first_line ≠ [] →
      ¬ (remove_query a.1.first_line = remove_query b.1.first_line ∧
        get_header_value a.1 Host = get_header_value b.1 Host) := by
    intro j k a b hjk ha hb ha0 hb0
    obtain ⟨hj, haj⟩ := List.getElem?_eq_some.mp ha
    obtain ⟨hk, hbk⟩ := List.getElem?_eq_some.mp hb
    have := hp j k (by simpa using hj) (by simpa using hk) hjk
    simp only [List.getElem_map, haj, hbk] at this
    exact this ha0 hb0
  have first : ∀ (j k : Nat) (a b : HTTPMessage × HTTPMessage), j ≠ k →
      archive_[j]? = some a → archive_[k]? = some b →
      a.1.first_line ≠ [] → b.1.first_line ≠ [] →
      ¬ (remove_query a.1.first_line = remove_query b.1.first_line ∧
        get_header_value a.1 Host = get_header_value b.1 Host) := by
    intro j k a b hjk ha hb ha0 hb0
    rcases Nat.lt_or_gt_of_ne hjk with hlt | hgt
    · exact ordered j k a b hlt ha hb ha0 hb0
    · intro hab
      exact ordered k j b a hgt hb ha hb0 ha0 ⟨hab.1.symm, hab.2.symm⟩
  refine ⟨first, ?_, ?_⟩
  · intro incoming_req j k a b hjk ha hb ha0 hb0 hboth
    exact first j k a b hjk ha hb ha0 hb0
      ⟨hboth.1.1.trans hboth.2.1.symm, hboth.1.2.trans hboth.2.2.symm⟩
  · intro heq
    subst heq
    exact first 0 1 (request "GET /a?x=1 HTTP/1.1" "example.com", ok_200)
      (request "GET /a?x=2 HTTP/1.1" "example.com", not_found_404)
      (by decide) (by decide) (by decide) (by decide) (by decide) (by decide)

/-- C18, on an archive built by `add_request`, `add_response` and
`add_request`: its two entries differ in first line up to the first `?`. -/
theorem reachable_candidates_differ_witness :
    ¬ (remove_query (request "GET /img?v=1 HTTP/1.1" "x.com").first_line =
        remove_query req_other.first_line ∧
      get_header_value (request "GET /img?v=1 HTTP/1.1" "x.com") Host =
        get_header_value req_other Host) :=
  (reachable_candidates_differ sample_str store_img_other reachable_store_img_other
    (by decide)).1 0 1
    (request "GET /img?v=1 HTTP/1.1" "x.com", ok_200) (req_other, blank)
    (by decide) (by decide) (by decide) (by decide) (by decide)

/-! ## `find_request` and the order of the entries -/

/-- Two entries of an archive whose requests are pairwise related by a
symmetric relation are one entry or have related requests. -/
theorem pairwise_fst_mem (R : HTTPMessage → HTTPMessage → Prop)
    (hsymm : ∀ a b, R a b → R b a) :
    ∀ (archive_ : Store), List.Pairwise R (archive_.map Prod.fst) →
      ∀ x ∈ archive_, ∀ y ∈ archive_, x = y ∨ R x.1 y.1 := by
  intro archive_
  induction archive_ with
  | nil => intro _ x hx; simp at hx
  | cons a rest ih =>
    intro hp x hx y hy
    rw [List.map_cons, List.pairwise_cons] at hp
    obtain ⟨hhead, htail⟩ := hp
    rcases List.mem_cons.mp hx with hxa | hxr
    · rcases List.mem_cons.mp hy with hya | hyr
      · exact Or.inl (by rw [hxa, hya])
      · right
        rw [hxa]
        exact hhead y.1 (List.mem_map_of_mem _ hyr)
    · rcases List.mem_cons.mp hy with hya | hyr
      · right
        rw [hya]
        exact hsymm _ _ (hhead x.1 (List.mem_map_of_mem _ hxr))
      · exact ih htail x hxr y hyr

/-- When every entry gets a score, `find_request` returns the same on an
archive and on a permutation of it, provided that two identical entries, and
two candidates of the same positive score, carry the same serialised
response. -/
theorem find_request_perm_of_unique (str : HTTPMessage → List Char)
    (archive_ permuted : Store) (request : HTTPMessage)
    (hperm : List.Perm archive_ permuted)
    (hscores : ∀ x ∈ archive_, ∃ v, match_size x.1.first_line request.first_line = .ok v)
    (hident : ∀ x ∈ archive_, ∀ y ∈ archive_, is_identical request x →
      is_identical request y → str x.2 = str y.2)
    (hties : ∀ x ∈ archive_, ∀ y ∈ archive_, is_candidate request x →
      is_candidate request y → ∀ v, 0 < v →
      match_size x.1.first_line request.first_line = .ok v →
      match_size y.1.first_line request.first_line = .ok v → str x.2 = str y.2) :
    find_request str permuted request = find_request str archive_ request := by
  have hmem : ∀ x, x ∈ permuted ↔ x ∈ archive_ := fun x => hperm.symm.mem_iff
  have hscores2 : ∀ x ∈ permuted,
      ∃ v, match_size x.1.first_line request.first_line = .ok v :=
    fun x hx => hscores x ((hmem x).mp hx)
  rcases find_request_describe_of_scores str archive_ request hscores with
    ⟨e, he, hei, hres⟩ | ⟨hne, hall, hres⟩ | ⟨hne, e, he, hec, best, hbest, hpos, hmax, hres⟩
  · rcases find_request_describe_of_scores str permuted request hscores2 with
      ⟨e2, he2, hei2, hres2⟩ | ⟨hne2, _, _⟩ | ⟨hne2, _⟩
    · rw [hres, hres2, hident e2 ((hmem e2).mp he2) e he hei2 hei]
    · exact absurd hei (hne2 e ((hmem e).mpr he))
    · exact absurd hei (hne2 e ((hmem e).mpr he))
  · rcases find_request_describe_of_scores str permuted request hscores2 with
      ⟨e2, he2, hei2, _⟩ | ⟨_, _, hres2⟩ | ⟨_, e2, he2, hec2, best2, hbest2, hpos2, _, _⟩
    · exact absurd hei2 (hne e2 ((hmem e2).mp he2))
    · rw [hres, hres2]
    · have := hall e2 ((hmem e2).mp he2) hec2 best2 hbest2
      omega
  · rcases find_request_describe_of_scores str permuted request hscores2 with
      ⟨e2, he2, hei2, _⟩ | ⟨_, hall2, _⟩ |
      ⟨_, e2, he2, hec2, best2, hbest2, hpos2, hmax2, hres2⟩
    · exact absurd hei2 (hne e2 ((hmem e2).mp he2))
    · have := hall2 e ((hmem e).mpr he) hec best hbest
      omega
    · have h1 := hmax e2 ((hmem e2).mp he2) hec2 best2 hbest2
      have h2 := hmax2 e ((hmem e).mpr he) hec best hbest
      have heq : best2 = best := by omega
      rw [heq] at hbest2
      rw [hres, hres2, hties e2 ((hmem e2).mp he2) e he hec2 hec best hpos hbest2 hbest]

/-- C12. On every archive built from the empty one by calls of `add_request`
and of `add_response` that return (the only code that writes the archive),
with request first lines of fewer than `2 ^ 31` characters, the order of the
entries has no part in the result: for every permutation of the entries and
every incoming request, `find_request` returns on both, and returns the same
flag and the same response. -/
theorem find_request_perm_reachable (str : HTTPMessage → List Char)
    (archive_ permuted : Store) (incoming_req : HTTPMessage)
    (h : Reachable str archive_) (hperm : List.Perm archive_ permuted)
    (hlen : ∀ x ∈ archive_, x.1.first_line.length < 2 ^ 31) :
    find_request str permuted incoming_req = find_request str archive_ incoming_req ∧
      ∃ res, find_request str archive_ incoming_req = .ok res := by
  have hlen2 : ∀ m ∈ archive_.map Prod.fst, m.first_line.length < 2 ^ 31 := by
    intro m hm
    obtain ⟨x, hx, hxm⟩ := List.mem_map.mp hm
    rw [← hxm]
    exact hlen x hx
  have hmin : ∀ x ∈ archive_,
      min x.1.first_line.length incoming_req.first_line.length < 2 ^ 31 := by
    intro x hx
    have h1 := hlen x hx
    have h2 := Nat.min_le_left x.1.first_line.length incoming_req.first_line.length
    omega
  have hscores : ∀ x ∈ archive_,
      ∃ v, match_size x.1.first_line incoming_req.first_line = .ok v := by
    intro x hx
    obtain ⟨r, hr, _⟩ := match_size_ok x.1.first_line incoming_req.first_line
      (by have := hmin x hx; omega)
    exact ⟨_, hr⟩
  have hone := pairwise_fst_mem _
    (fun a b (hab : ¬ (a.first_line = b.first_line ∧
        get_header_value a Host = get_header_value b Host)) hba =>
      hab ⟨hba.1.symm, hba.2.symm⟩)
    archive_ (reachable_pairwise str archive_ h)
  have hquery := pairwise_fst_mem _
    (fun a b (hab : a.first_line ≠ [] → b.first_line ≠ [] →
        ¬ (remove_query a.first_line = remove_query b.first_line ∧
          get_header_value a Host = get_header_value b Host)) hb0 ha0 hba =>
      hab ha0 hb0 ⟨hba.1.symm, hba.2.symm⟩)
    archive_ (reachable_pairwise_query str archive_ h hlen2)
  have hident : ∀ x ∈ archive_, ∀ y ∈ archive_, is_identical incoming_req x →
      is_identical incoming_req y → str x.2 = str y.2 := by
    intro x hx y hy hxi hyi
    rcases hone x hx y hy with hxy | hdiff
    · rw [hxy]
    · exact absurd ⟨hxi.1.trans hyi.1.symm, hxi.2.trans hyi.2.symm⟩ hdiff
  have hnonempty : ∀ x ∈ archive_, is_candidate incoming_req x → ∀ v, 0 < v →
      match_size x.1.first_line incoming_req.first_line = .ok v → x.1.first_line ≠ [] := by
    intro x hx hc v hv hms h0
    rw [match_size_eq_shared_length _ _ hc.1 (hmin x hx)] at hms
    simp only [Outcome.ok.injEq] at hms
    have hz := (shared_length_eq_zero_iff _ _ hc.1).mpr (Or.inl h0)
    rw [hz] at hms
    simp only [Nat.cast_zero] at hms
    omega
  have hties : ∀ x ∈ archive_, ∀ y ∈ archive_, is_candidate incoming_req x →
      is_candidate incoming_req y → ∀ v, 0 < v →
      match_size x.1.first_line incoming_req.first_line = .ok v →
      match_size y.1.first_line incoming_req.first_line = .ok v → str x.2 = str y.2 := by
    intro x hx y hy hxc hyc v hv hxs hys
    rcases hquery x hx y hy with hxy | hdiff
    · rw [hxy]
    · exact absurd ⟨hxc.1.trans hyc.1.symm, hxc.2.trans hyc.2.symm⟩
        (hdiff (hnonempty x hx hxc v hv hxs) (hnonempty y hy hyc v hv hys))
  refine ⟨find_request_perm_of_unique str archive_ permuted incoming_req hperm hscores hident
    hties, ?_⟩
  rcases find_request_describe_of_scores str archive_ incoming_req hscores with
    ⟨_, _, _, hres⟩ | ⟨_, _, hres⟩ | ⟨_, _, _, _, _, _, _, _, hres⟩
  · exact ⟨_, hres⟩
  · exact ⟨_, hres⟩
  · exact ⟨_, hres⟩

/-- C12, on the archive `store_img_other`, built by `add_request`,
`add_response` and `add_request`, and the same entries in the other order:
`find_request` returns the stored response on both. -/
theorem find_request_perm_reachable_witness :
    find_request sample_str store_img_other_swapped req_img =
        find_request sample_str store_img_other req_img ∧
      find_request sample_str store_img_other_swapped req_img =
        .ok (true, sample_str ok_200) :=
  ⟨(find_request_perm_reachable sample_str store_img_other store_img_other_swapped req_img
      reachable_store_img_other (List.Perm.swap _ _ []) (by decide)).1,
    by decide⟩

end Archive
